import Mathlib

/-!
Verification development for the db2vec migration pipeline.

This file gives a shallow embedding of the parts of the Rust sources that the
checked properties are about:

* a model of `serde_json::Value` (`JValue`) and of `serde_json::Map`
  (a sorted association list, matching the `BTreeMap` used by default);
* the recursive HTML cleaner `clean_html_in_value`
  (src/parser/parse_regex/mod.rs);
* the dump-format detector `detect_format` (src/parser/mod.rs);
* the record-construction stage shared by the SQL dialect parsers and the two
  emission paths of the SurrealDB parser (src/parser/parse_regex/*.rs);
* the batch controller `store_in_batches` (src/db/mod.rs) and the storing loop
  of `execute_migration_workflow` (src/workflow.rs);
* the vector-shaping stages of the five HTTP vector drivers (src/db/*.rs) and
  the metric mappers of the Redis and Milvus drivers;
* the embedding orchestrator `process_batch_chunk` /
  `process_records_with_embeddings` (src/embedding/embeding.rs,
  src/embedding/mod.rs) over stubbed providers;
* the byte-slicing truncation of `EmbeddingService::generate_single`.

External crates (`serde_json` serialization, `html2text`, HTTP clients,
`uuid`) are either taken as parameters of the embedded functions or, for
`html2text::from_read`, modelled from the specification (see `htmlRender`).
-/

/-- ASCII lower-casing of a character, as used by Rust's
`eq_ignore_ascii_case`. -/
def asciiLower (c : Char) : Char :=
  if 'A' ≤ c ∧ c ≤ 'Z' then Char.ofNat (c.toNat + 32) else c

/-- Rust `str::eq_ignore_ascii_case`. -/
def ciEq (a b : String) : Bool :=
  a.data.map asciiLower == b.data.map asciiLower

/-- Model of `serde_json::Value`.  Numbers are collapsed to `Int`: none of the
verified properties depends on the numeric payload. -/
inductive JValue where
  | null : JValue
  | bool : Bool → JValue
  | num : Int → JValue
  | str : String → JValue
  | arr : List JValue → JValue
  | obj : List (String × JValue) → JValue
deriving Repr, Inhabited

/-- Model of `serde_json::Map<String, Value>`: `serde_json` without the
`preserve_order` feature backs its map with a `BTreeMap`, i.e. an association
list sorted strictly by key. -/
abbrev Jmap := List (String × JValue)

/-- `BTreeMap::insert`: keeps the list sorted by key, replacing the binding
when the key is already present. -/
def mapInsert (k : String) (v : JValue) : Jmap → Jmap
  | [] => [(k, v)]
  | (k', v') :: rest =>
    if k = k' then (k, v) :: rest
    else if k < k' then (k, v) :: (k', v') :: rest
    else (k', v') :: mapInsert k v rest

/-- `BTreeMap::remove`: drops the first binding of the key. -/
def mapRemove (k : String) : Jmap → Jmap
  | [] => []
  | (k', v') :: rest => if k = k' then rest else (k', v') :: mapRemove k rest

/-- Lookup of a key's binding. -/
def mapFind (k : String) : Jmap → Option JValue
  | [] => none
  | (k', v') :: rest => if k = k' then some v' else mapFind k rest

/-- The keys of a map, in list order. -/
def mapKeys (m : Jmap) : List String := m.map Prod.fst

/-- Whether a key is present. -/
def hasKey (k : String) (m : Jmap) : Bool := (mapFind k m).isSome

/-- Whether a key case-insensitively equal to `k` is present (Rust:
`obj.keys().find(|x| x.eq_ignore_ascii_case(k))`). -/
def findCiKey (k : String) (m : Jmap) : Option String :=
  (mapKeys m).find? (fun k' => ciEq k' k)

/-- Whether the map holds a key whose ASCII-case-folded name equals `k`. -/
def hasKeyCi (k : String) (m : Jmap) : Bool := (findCiKey k m).isSome

/-! ### HTML-text cleaner (src/parser/parse_regex/mod.rs, `clean_html_in_value`) -/

/-- Rust `char::is_whitespace` (restricted to the ASCII whitespace range that
`Char.isWhitespace` models; the dumps handled by the parsers are ASCII). -/
def isWs (c : Char) : Bool := c.isWhitespace

/-- `str::replace('\n', " ")`. -/
def replaceNl (l : List Char) : List Char :=
  l.map (fun c => if c = '\n' then ' ' else c)

/-- `str::split_whitespace`: maximal runs of non-whitespace characters. -/
def words (l : List Char) : List (List Char) :=
  match l with
  | [] => []
  | c :: cs =>
    if isWs c then words cs
    else (c :: cs.takeWhile (fun d => !(isWs d))) ::
      words (cs.dropWhile (fun d => !(isWs d)))
termination_by l.length
decreasing_by
  · simp
  · have := (List.dropWhile_sublist (p := fun d => !(isWs d)) (l := cs)).length_le
    simp
    omega

/-- `str::trim`: drop whitespace from both ends. -/
def trimChars (l : List Char) : List Char :=
  ((l.dropWhile isWs).reverse.dropWhile isWs).reverse

/-- Modelled from the spec: `html2text::from_read` is an external crate (not
part of this repository); §4.4 of the specification describes its use here as
"plain-text rendering (markup stripped)".  The model removes every span that
starts at a `<` and runs through the next `>`; text outside such spans, and a
trailing `<` that is never closed, are kept verbatim. -/
def htmlRender : List Char → List Char
  | [] => []
  | c :: cs =>
    if c = '<' ∧ cs.contains '>' then
      htmlRender ((cs.dropWhile (fun d => d ≠ '>')).drop 1)
    else c :: htmlRender cs
termination_by l => l.length
decreasing_by
  · have := (List.dropWhile_sublist (p := fun d => decide (d ≠ '>'))
      (l := cs)).length_le
    simp
    simp at this
    omega
  · simp

/-- `Vec::join(" ")`: concatenate words with a single space between. -/
def joinSpace : List (List Char) → List Char
  | [] => []
  | [w] => w
  | w :: ws => w ++ ' ' :: joinSpace ws

/-- The whitespace-normalisation stage of the cleaner:
`.replace('\n', " ").split_whitespace().collect::<Vec<_>>().join(" ").trim()`. -/
def normChars (l : List Char) : List Char :=
  trimChars (joinSpace (words (replaceNl l)))

/-- The string case of `clean_html_in_value`: strings containing both `<` and
`>` are rendered to plain text (via `htmlRender`) and whitespace-normalised;
other strings are untouched. -/
def cleanChars (l : List Char) : List Char :=
  if l.contains '<' ∧ l.contains '>' then normChars (htmlRender l) else l

/-- String-level cleaner on `String`. -/
def cleanString (s : String) : String := String.mk (cleanChars s.data)

mutual

/-- `clean_html_in_value`: recursive traversal cleaning every string leaf. -/
def cleanValue : JValue → JValue
  | .str s => .str (cleanString s)
  | .arr l => .arr (cleanList l)
  | .obj m => .obj (cleanPairs m)
  | v => v

/-- `clean_html_in_value` over the elements of an array. -/
def cleanList : List JValue → List JValue
  | [] => []
  | v :: vs => cleanValue v :: cleanList vs

/-- `clean_html_in_value` over the values of an object (keys untouched). -/
def cleanPairs : List (String × JValue) → List (String × JValue)
  | [] => []
  | (k, v) :: ps => (k, cleanValue v) :: cleanPairs ps

end

/-! ### Format detector (src/parser/mod.rs, `detect_format`) -/

/-- Whether `pat` is a prefix of `l` (character lists). -/
def startsWithSeq : List Char → List Char → Bool
  | [], _ => true
  | _ :: _, [] => false
  | p :: ps, c :: cs => p = c && startsWithSeq ps cs

/-- Whether `pat` occurs contiguously inside `l` (Rust `str::contains`). -/
def containsSeq (pat : List Char) : List Char → Bool
  | [] => pat.isEmpty
  | c :: cs => startsWithSeq pat (c :: cs) || containsSeq pat cs

/-- Rust `str::contains` on `String`. -/
def strContains (s pat : String) : Bool := containsSeq pat.data s.data

/-- Rust `str::starts_with` on `String`. -/
def strStarts (s pat : String) : Bool := startsWithSeq pat.data s.data

/-- Rust `str::ends_with` on `String`. -/
def strEnds (s pat : String) : Bool :=
  startsWithSeq pat.data.reverse s.data.reverse

/-- Oracle branch of `detect_format` (src/parser/mod.rs lines 102-113). -/
def oracle_sig (content : String) : Bool :=
  strContains content "REM INSERTING into" ||
  strContains content "SET DEFINE OFF;" ||
  strContains content "Insert into " ||
  (strContains content "CREATE TABLE \"" &&
    strContains content "PCTFREE" &&
    strContains content "TABLESPACE") ||
  strContains content "BUFFER_POOL DEFAULT FLASH_CACHE DEFAULT CELL_FLASH_CACHE DEFAULT" ||
  strContains content "USING INDEX PCTFREE" ||
  strContains content "ALTER SESSION SET EVENTS" ||
  strContains content "DBMS_LOGREP_IMP"

/-- Postgres branch of `detect_format` (lines 118-124). -/
def postgres_sig (content : String) : Bool :=
  strContains content "COPY public." ||
  strContains content "OWNER TO" ||
  strContains content "SET standard_conforming_strings" ||
  strContains content "pg_catalog.setval"

/-- SQLite branch of `detect_format` (lines 128-137). -/
def sqlite_sig (content : String) : Bool :=
  strStarts content "PRAGMA foreign_keys=OFF;" ||
  (strContains content "BEGIN TRANSACTION;" &&
    strContains content "COMMIT;" &&
    strContains content "CREATE TABLE" &&
    !(strContains content "ENGINE=InnoDB") &&
    !(strContains content "TABLESPACE") &&
    strContains content "INSERT INTO ") ||
  strContains content "sqlite_sequence"

/-- MSSQL branch of `detect_format` (lines 142-149). -/
def mssql_sig (content : String) : Bool :=
  strContains content "SET ANSI_NULLS ON" ||
  strContains content "SET QUOTED_IDENTIFIER ON" ||
  strContains content "CREATE TABLE [dbo]." ||
  strContains content "INSERT [dbo]." ||
  strContains content "WITH (PAD_INDEX = OFF" ||
  strContains content "GO"

/-- MySQL branch of `detect_format` (lines 154-160). -/
def mysql_sig (content : String) : Bool :=
  strContains content "ENGINE=InnoDB" ||
  strContains content "LOCK TABLES" ||
  strContains content "/*!40" ||
  strContains content "AUTO_INCREMENT" ||
  strContains content "COLLATE=utf8mb4"

/-- `detect_format` (src/parser/mod.rs lines 93-165): the ordered signature
cascade; the final fallthrough returns the string `json`. -/
def detect_format (file_path content : String) : String :=
  if strEnds file_path ".surql" then "surreal"
  else if oracle_sig content then "oracle"
  else if postgres_sig content then "postgres"
  else if sqlite_sig content then "sqlite"
  else if mssql_sig content then "mssql"
  else if mysql_sig content then "mysql"
  else "json"

/-! ### Record construction in the dialect parsers (src/parser/parse_regex) -/

/-- The record-construction stage shared verbatim by the MySQL (lines
107-190), Postgres (lines 40-89), Oracle (lines 107-130), SQLite (lines
116-179) and MSSQL (lines 289-376) parsers: start from a map holding only
`table`, insert each decoded column value under its column name, remove the
first key that ASCII-case-insensitively equals `id`, and emit the record
(after HTML cleaning) only when more than one entry remains.  The dialects
differ only in how the `(column, value)` pairs are tokenised and decoded,
which this function takes as input. -/
def buildSqlRecord (table : String) (fields : List (String × JValue)) :
    Option JValue :=
  let obj := fields.foldl (fun m kv => mapInsert kv.1 kv.2 m)
    (mapInsert "table" (.str table) [])
  let obj2 :=
    match findCiKey "id" obj with
    | some k => mapRemove k obj
    | none => obj
  if 1 < obj2.length then some (cleanValue (.obj obj2)) else none

/-- The direct-JSON emission path of the SurrealDB parser
(src/parser/parse_regex/surreal.rs lines 82-89): when
`serde_json::from_str::<Map<_, _>>` succeeds on a fragment (parsed map `m`),
the parser only inserts the `table` tag, cleans HTML and emits; no `id`
stripping happens on this path. -/
def surrealJsonItem (m : Jmap) (table : String) : JValue :=
  cleanValue (.obj (mapInsert "table" (.str table) m))

/-- The regex-fallback emission path of the SurrealDB parser (surreal.rs lines
91-141): key/value captures are inserted in order, the `table` tag is added,
the binding of the exact key `id` is removed, and the record is emitted (after
HTML cleaning) only when more than one entry remains.  The decoded capture
values are taken as input. -/
def surrealFallbackItem (caps : List (String × JValue)) (table : String) :
    Option JValue :=
  let record := mapRemove "id"
    (mapInsert "table" (.str table)
      (caps.foldl (fun m kv => mapInsert kv.1 kv.2 m) []))
  if 1 < record.length then some (cleanValue (.obj record)) else none

/-- The INSERT-processing loop of the MySQL parser
(src/parser/parse_regex/mysql.rs lines 51-192) over the regex captures: for
every captured `INSERT INTO t ... VALUES` statement the harvested column
names are looked up in `table_columns` (built from the `CREATE TABLE` scan);
an insert whose table has no discovered columns is skipped entirely (lines
59-65).  Row tokenisation (the quote-tracking character walk, lines 68-94)
and scalar decoding (lines 110-167, which call into `serde_json`) affect only
the field values, and are taken as inputs. -/
def parse_mysql_inserts (decode : String → JValue)
    (tokenize : List Char → Nat → List String)
    (table_columns : List (String × List String))
    (inserts : List (String × List (List Char))) : List JValue :=
  inserts.flatMap (fun ti =>
    match table_columns.find? (fun p => p.1 == ti.1) with
    | none => []
    | some (_, cols) =>
      ti.2.filterMap (fun row =>
        let fields := tokenize row cols.length
        if fields.length = cols.length then
          buildSqlRecord ti.1 (cols.zip (fields.map decode))
        else none))

/-! ### Batch controller (src/db/mod.rs `store_in_batches`) and the storing
loop of src/workflow.rs `execute_migration_workflow` -/

/-- An item handed to `Database::store_vector`: `(id, vector, metadata)`.
Vector components are modelled as rationals (`f32` arithmetic is never
performed on them: they are only moved around and compared against the
constants `0.0` and `0.1`). -/
abbrev Item := String × List ℚ × JValue

/-- A single `store_vector(table, items)` invocation. -/
abbrev Call := String × List Item

/-- A vector-store driver, as seen by the batch controller: `store_vector`
returns `Ok(())` or an error. -/
abbrev Driver := String → List Item → Except String Unit

/-- `rec_size` of one item in `store_in_batches` (src/db/mod.rs line 50):
`id.len() + vec.len() * 4 + meta_json.len()`, where `meta_json` is the
`serde_json` rendering of the metadata; the serializer (an external crate) is
the `toJson` parameter. -/
def recSize (toJson : JValue → String) (it : Item) : Nat :=
  it.1.utf8ByteSize + it.2.1.length * 4 + (toJson it.2.2).utf8ByteSize

/-- Cumulative serialized size of a batch. -/
def batchSize (toJson : JValue → String) (b : List Item) : Nat :=
  (b.map (recSize toJson)).sum

/-- Rust `slice::chunks(n)`: contiguous chunks of length `n` (last one
possibly shorter).  `chunks(0)` panics in Rust; the `0` case here is a stub
and every property assumes a positive chunk size. -/
def chunksOf : Nat → List α → List (List α)
  | _, [] => []
  | 0, _ :: _ => []
  | n + 1, a :: as => (a :: as).take (n + 1) :: chunksOf (n + 1) ((a :: as).drop (n + 1))
termination_by _ l => l.length
decreasing_by
  simp
  omega

/-- The batch partition computed by the loop of `store_in_batches`
(src/db/mod.rs lines 46-61): `pending` is the slice `items[start..i]`, `cur`
is `cur_size`, and `rest` the items not yet visited.  A flush happens when
adding the next item would exceed `maxBytes` and the pending slice is
non-empty; the final non-empty slice is always flushed. -/
def sibPlan (toJson : JValue → String) (maxBytes : Nat) :
    List Item → List Item → Nat → List (List Item)
  | pending, [], _ => if pending.isEmpty then [] else [pending]
  | pending, it :: rest, cur =>
    if maxBytes < cur + recSize toJson it ∧ ¬ pending.isEmpty then
      pending :: sibPlan toJson maxBytes [it] rest (recSize toJson it)
    else sibPlan toJson maxBytes (pending ++ [it]) rest (cur + recSize toJson it)

/-- `store_in_batches` itself: the same loop, issuing `store_vector` calls
through `driver` and propagating the first error (the `?` operator on
src/db/mod.rs lines 52 and 60).  Returns the list of issued calls together
with the result. -/
def sibRun (driver : Driver) (toJson : JValue → String) (maxBytes : Nat)
    (t : String) :
    List Item → List Item → Nat → List Call × Except String Unit
  | pending, [], _ =>
    if pending.isEmpty then ([], .ok ())
    else ([(t, pending)], driver t pending)
  | pending, it :: rest, cur =>
    if maxBytes < cur + recSize toJson it ∧ ¬ pending.isEmpty then
      match driver t pending with
      | .ok _ =>
        let res := sibRun driver toJson maxBytes t [it] rest (recSize toJson it)
        ((t, pending) :: res.1, res.2)
      | .error e => ([(t, pending)], .error e)
    else sibRun driver toJson maxBytes t (pending ++ [it]) rest (cur + recSize toJson it)

/-- Sequential composition of call-issuing steps, stopping at the first
error: the shape of both batch loops in `execute_migration_workflow`
(src/workflow.rs lines 92-106). -/
def seqRun (f : α → List Call × Except String Unit) :
    List α → List Call × Except String Unit
  | [] => ([], .ok ())
  | a :: as =>
    match f a with
    | (cs, .ok _) =>
      let res := seqRun f as
      (cs ++ res.1, res.2)
    | (cs, .error e) => (cs, .error e)

/-- The inner loop of the workflow for one table group (src/workflow.rs lines
94-105): split `items` into chunks of `chunk_size` and run `store_in_batches`
on each, stopping at the first error. -/
def store_group_run (driver : Driver) (toJson : JValue → String)
    (chunkSize maxBytes : Nat) (t : String) (items : List Item) :
    List Call × Except String Unit :=
  seqRun (fun c => sibRun driver toJson maxBytes t [] c 0)
    (chunksOf chunkSize items)

/-- The full storing loop of `execute_migration_workflow` (src/workflow.rs
lines 92-106) over the grouped records (the `HashMap` iteration order is an
arbitrary list here): each group is flushed in turn, and the first store
error aborts the loop and becomes the run's result. -/
def run_storage (driver : Driver) (toJson : JValue → String)
    (chunkSize maxBytes : Nat) (groups : List (String × List Item)) :
    List Call × Except String Unit :=
  seqRun (fun g => store_group_run driver toJson chunkSize maxBytes g.1 g.2)
    groups

/-- The pure batch partition for one table group: chunking by `chunk_size`
followed by the `store_in_batches` partition of each chunk. -/
def group_batches (toJson : JValue → String) (chunkSize maxBytes : Nat)
    (items : List Item) : List (List Item) :=
  (chunksOf chunkSize items).flatMap (fun c => sibPlan toJson maxBytes [] c 0)

/-- Correctness statement for a call-issuing run: when the result is `Ok`,
every issued call succeeded; when it is an error `e`, the issued calls are a
non-empty sequence whose every call but the last succeeded, whose last call
failed with `e` — and no further call was issued. -/
def GoodOut (driver : Driver) (out : List Call × Except String Unit) : Prop :=
  match out.2 with
  | .ok _ => ∀ c ∈ out.1, driver c.1 c.2 = Except.ok ()
  | .error e => ∃ pre last, out.1 = pre ++ [last] ∧
      (∀ c ∈ pre, driver c.1 c.2 = Except.ok ()) ∧
      driver last.1 last.2 = Except.error e

/-! ### Vector shaping in the drivers (src/db) -/

/-- Vector shaping of the Pinecone driver (src/db/pinecone.rs lines 171-188):
an empty vector becomes `dimension` dummy `0.1` values; a non-empty vector of
the wrong length is truncated and zero-padded to `dimension`; otherwise the
vector is forwarded unchanged. -/
def pinecone_shape (dimension : Nat) (vector : List ℚ) : List ℚ :=
  if vector.isEmpty then List.replicate dimension (1 / 10 : ℚ)
  else if vector.length ≠ dimension then
    vector.take dimension ++ List.replicate (dimension - vector.length) 0
  else vector

/-- Vector shaping of the Chroma driver (src/db/chroma.rs lines 148-170): an
empty vector becomes the single dummy value `[0.1]` (regardless of the
configured dimension); a non-empty vector of the wrong length is truncated
and zero-padded to `dimension`; otherwise forwarded unchanged. -/
def chroma_shape (dimension : Nat) (vector : List ℚ) : List ℚ :=
  if vector.isEmpty then [(1 / 10 : ℚ)]
  else if vector.length ≠ dimension then
    vector.take dimension ++ List.replicate (dimension - vector.length) 0
  else vector

/-- Vector shaping of the Milvus driver (src/db/milvus.rs lines 270-282): any
vector whose length differs from `dimension` is replaced wholesale by a zero
vector of length `dimension` (the original components are discarded). -/
def milvus_shape (dimension : Nat) (vector : List ℚ) : List ℚ :=
  if vector.length = dimension then vector else List.replicate dimension 0

/-- Vectors sent by `PineconeDatabase::store_vector` (pinecone.rs lines
168-217). -/
def pinecone_stored_vectors (dimension : Nat) (items : List Item) :
    List (List ℚ) :=
  items.map (fun it => pinecone_shape dimension it.2.1)

/-- Vectors sent by `ChromaDatabase::store_vector` (chroma.rs lines
148-170). -/
def chroma_stored_vectors (dimension : Nat) (items : List Item) :
    List (List ℚ) :=
  items.map (fun it => chroma_shape dimension it.2.1)

/-- Vectors sent by `QdrantDatabase::store_vector` (qdrant.rs lines 138-147):
the points are built with the input vector verbatim; no shaping happens. -/
def qdrant_stored_vectors (items : List Item) : List (List ℚ) :=
  items.map (fun it => it.2.1)

/-- Vectors sent by `MilvusDatabase::store_vector` (milvus.rs lines
268-307). -/
def milvus_stored_vectors (dimension : Nat) (items : List Item) :
    List (List ℚ) :=
  items.map (fun it => milvus_shape dimension it.2.1)

/-- Vectors sent by `RedisDatabase::store_vector` (redis.rs lines 246-315):
both the grouped and the indexed mode serialize the input vector verbatim; no
shaping happens. -/
def redis_stored_vectors (items : List Item) : List (List ℚ) :=
  items.map (fun it => it.2.1)

/-! ### Metric mapping (src/db/redis.rs, src/db/milvus.rs) -/

/-- Rust `str::to_lowercase`, character by character (the metric strings
compared against are ASCII, where this agrees with Unicode lowering). -/
def strToLower (s : String) : String := String.mk (s.data.map Char.toLower)

/-- Rust `str::to_uppercase`, character by character. -/
def strToUpper (s : String) : String := String.mk (s.data.map Char.toUpper)

/-- `RedisDatabase::map_metric_to_redis` (redis.rs lines 106-116): unknown
metrics fall through to `COSINE` with a warning. -/
def map_metric_to_redis (metric : String) : String :=
  let m := strToLower metric
  if m = "cosine" then "COSINE"
  else if m = "l2" ∨ m = "euclidean" then "L2"
  else if m = "ip" ∨ m = "dotproduct" ∨ m = "innerproduct" then "IP"
  else "COSINE"

/-- The metric validation in `MilvusDatabase::new` (milvus.rs lines 32-44):
an unrecognized metric makes driver construction fail with an error. -/
def milvus_metric (metric : String) : Except String String :=
  let m := strToUpper metric
  if m = "COSINE" ∨ m = "COSINE_SIMILARITY" then .ok "COSINE"
  else if m = "IP" ∨ m = "DOT_PRODUCT" then .ok "IP"
  else if m = "L2" ∨ m = "EUCLIDEAN" then .ok "L2"
  else .error ("Invalid metric type " ++ metric)

/-! ### Embedding orchestrator (src/embedding/embeding.rs, src/embedding/mod.rs) -/

/-- `EmbeddingService::process_batch_chunk` (embeding.rs lines 177-248) over
a stubbed HTTP layer.  `batched` is the outcome of the batched request:
`none` models a transport failure or non-success status, `some embs` a parsed
`embeddings` array whose entries carry an `embedding` float array (`some v`)
or lack one (`none`; such entries are skipped when collecting).  When the
collected count does not match `texts.len()` — or the batched request failed —
the code falls back to per-text requests (`single`; a failed single request
contributes `Vec::new()` via `unwrap_or_else`), and returns `Ok` with only
the non-empty fallback vectors, merely warning when some are missing (lines
223-247).  No path of this function fails on a count mismatch. -/
def process_batch_chunk (batched : Option (List (Option (List ℚ))))
    (single : String → Option (List ℚ)) (texts : List String) :
    List (List ℚ) :=
  match batched with
  | some embs =>
    let result := embs.filterMap id
    if result.length = texts.length then result
    else (texts.map (fun t => (single t).getD [])).filter (fun v => !v.isEmpty)
  | none =>
    (texts.map (fun t => (single t).getD [])).filter (fun v => !v.isEmpty)

/-- `process_records_with_embeddings` (src/embedding/mod.rs lines 28-74):
records are chunked by `embedding_batch_size`; each chunk is serialized
(`serde_json::to_string`, the `serialize` parameter) and embedded through
`process_batch_chunk`; the chunk's records are then `zip`ped with the
returned vectors — `zip` silently drops trailing records when fewer vectors
than records come back.  The freshly minted `uuid` of each prepared record is
omitted from the model (no verified property depends on it); the `table`
entry is read with `unwrap()` (`none` here models the panic) and removed from
the metadata copy. -/
def process_records_with_embeddings
    (provider : List String → Option (List (Option (List ℚ))))
    (single : String → Option (List ℚ))
    (serialize : JValue → String) (chunkSize : Nat)
    (records : List JValue) : Option (List (String × List ℚ × JValue)) :=
  ((chunksOf chunkSize records).mapM (fun (chunk : List JValue) =>
    let texts := chunk.map serialize
    let embeddings := process_batch_chunk (provider texts) single texts
    (chunk.zip embeddings).mapM (fun (rv : JValue × List ℚ) =>
      match rv.1 with
      | .obj m =>
        match mapFind "table" m with
        | some (.str t) => some (t, rv.2, JValue.obj (mapRemove "table" m))
        | _ => none
      | _ => none))).map List.flatten

/-! ### Byte-slice truncation (src/embedding/embeding.rs lines 95-99) -/

/-- UTF-8 byte length of a character list (Rust `str::len`). -/
def utf8Len (l : List Char) : Nat := (l.map Char.utf8Size).sum

/-- Rust byte-range slicing `&text[0..n]`: returns the characters making up
the first `n` bytes, or `none` — modelling the slicing panic — when `n` falls
strictly inside the UTF-8 encoding of a character (or past the end). -/
def takeBytes : Nat → List Char → Option (List Char)
  | 0, _ => some []
  | _ + 1, [] => none
  | n + 1, c :: cs =>
    if c.utf8Size ≤ n + 1 then
      (takeBytes (n + 1 - c.utf8Size) cs).map (fun l => c :: l)
    else none

/-- The truncation step of `EmbeddingService::generate_single` (embeding.rs
lines 95-99): when the text's byte length exceeds `max_tokens` the code takes
`&text[0..max_tokens]` — a direct byte slice; `none` models the panic raised
when `max_tokens` is not a character boundary of the text. -/
def generate_single_trim (maxTokens : Nat) (text : List Char) :
    Option (List Char) :=
  if maxTokens < utf8Len text then takeBytes maxTokens text else some text

/-! ### Concrete fixtures used by witnesses and counterexamples -/

/-- A parsed record with a single data field `k` and its `table` tag. -/
def rec0 (s : String) : JValue := .obj [("k", .str s), ("table", .str "t")]

/-- Four records forming one embedding chunk. -/
def records0 : List JValue := [rec0 "a", rec0 "b", rec0 "c", rec0 "d"]

/-- A stub for `serde_json::to_string` on the fixtures: the value of `k`. -/
def serialize0 : JValue → String
  | .obj (("k", .str s) :: _) => s
  | _ => ""

/-- A stubbed batched-embedding response: three vectors, whatever the
request. -/
def provider0 : List String → Option (List (Option (List ℚ))) :=
  fun _ => some [some [1], some [2], some [3]]

/-- A stubbed single-embedding endpoint that fails on the text `b`. -/
def single0 : String → Option (List ℚ) :=
  fun s =>
    if s = "a" then some [10]
    else if s = "c" then some [30]
    else if s = "d" then some [40]
    else none

/-- A stub for `serde_json::to_string` on metadata: the fixed rendering
`null` (4 bytes). -/
def toJson0 : JValue → String := fun _ => "null"

/-- An item whose serialized size is 4 bytes under `toJson0`. -/
def item0 : Item := ("", [], .null)

/-- A driver that accepts every table except `bad`. -/
def driver0 : Driver := fun t _ => if t = "bad" then .error "boom" else .ok ()

/-- A driver that accepts everything. -/
def okDriver : Driver := fun _ _ => .ok ()

/-- Three table groups; the second one fails under `driver0`. -/
def groups0 : List (String × List Item) :=
  [("g", [item0]), ("bad", [item0]), ("after", [item0])]

/-- A stub scalar decoder for the MySQL parser model. -/
def decode0 : String → JValue := fun s => .str s

/-- A stub row tokenizer for the MySQL parser model. -/
def tokenize0 : List Char → Nat → List String := fun _ _ => []

mutual

/-- Whether every string leaf of a value fails the cleaner's guard, i.e. does
not contain both an opening and a closing angle bracket. -/
def leafClean : JValue → Bool
  | .str s => !(s.data.contains '<' && s.data.contains '>')
  | .arr l => leafCleanList l
  | .obj m => leafCleanPairs m
  | _ => true

/-- `leafClean` over array elements. -/
def leafCleanList : List JValue → Bool
  | [] => true
  | v :: vs => leafClean v && leafCleanList vs

/-- `leafClean` over object values. -/
def leafCleanPairs : List (String × JValue) → Bool
  | [] => true
  | (_, v) :: ps => leafClean v && leafCleanPairs ps

end

/-- No opening angle bracket is later followed by a closing one: the
key invariant of `htmlRender` output. -/
def noLtGt : List Char → Bool
  | [] => true
  | c :: cs => if c = '<' then !(cs.contains '>') else noLtGt cs

/-! ### Lemmas about the map model -/

theorem mapFind_mapInsert_self (k : String) (v : JValue) (m : Jmap) :
    mapFind k (mapInsert k v m) = some v := by
  induction m with
  | nil => simp [mapInsert, mapFind]
  | cons hd tl ih =>
    obtain ⟨k', v'⟩ := hd
    by_cases h : k = k'
    · simp [mapInsert, h, mapFind]
    · by_cases h2 : k < k'
      · simp [mapInsert, h, h2, mapFind]
      · simp [mapInsert, h, h2, mapFind, Ne.symm h, ih]

theorem mapFind_mapInsert_ne (k j : String) (v : JValue) (m : Jmap)
    (h : j ≠ k) : mapFind j (mapInsert k v m) = mapFind j m := by
  induction m with
  | nil => simp [mapInsert, mapFind, h]
  | cons hd tl ih =>
    obtain ⟨k', v'⟩ := hd
    by_cases h1 : k = k'
    · subst h1
      simp [mapInsert, mapFind, h]
    · by_cases h2 : k < k'
      · simp [mapInsert, h1, h2, mapFind, h]
      · by_cases h3 : j = k'
        · simp [mapInsert, h1, h2, mapFind, h3]
        · simp [mapInsert, h1, h2, mapFind, h3, ih]


/-! ### C5: format-detector fallback -/

/-- C5 counterexample: the input `("a.txt", "hello")` ends in no `.surql`
suffix and matches none of the Oracle, Postgres, SQLite, MSSQL or MySQL
signatures, yet `detect_format` returns the string `json`, not `unknown`. -/
theorem detect_format_fallback_is_json_not_unknown :
    strEnds "a.txt" ".surql" = false ∧ oracle_sig "hello" = false ∧
    postgres_sig "hello" = false ∧ sqlite_sig "hello" = false ∧
    mssql_sig "hello" = false ∧ mysql_sig "hello" = false ∧
    detect_format "a.txt" "hello" = "json" ∧
    detect_format "a.txt" "hello" ≠ "unknown" := by
  refine ⟨by decide, by decide, by decide, by decide, by decide, by decide, ?_, ?_⟩
  · decide
  · decide

/-- C5 (amended): when the file path does not end in `.surql` and the content
matches none of the Oracle, Postgres, SQLite, MSSQL or MySQL signature sets,
the detector returns the fallback classification string `json` (which
downstream code treats as an unrecognized dump). -/
theorem detect_format_fallback (file_path content : String)
    (h1 : strEnds file_path ".surql" = false)
    (h2 : oracle_sig content = false) (h3 : postgres_sig content = false)
    (h4 : sqlite_sig content = false) (h5 : mssql_sig content = false)
    (h6 : mysql_sig content = false) :
    detect_format file_path content = "json" := by
  simp [detect_format, h1, h2, h3, h4, h5, h6]

/-- Witness for `detect_format_fallback` at the concrete input
`("a.txt", "hello")`. -/
theorem detect_format_fallback_witness :
    detect_format "a.txt" "hello" = "json" :=
  detect_format_fallback "a.txt" "hello" (by decide) (by decide) (by decide)
    (by decide) (by decide) (by decide)

/-! ### C7: metric mapping -/

/-- C7 counterexample: for the unrecognized metric string `foo` the Milvus
driver does not default to cosine — `MilvusDatabase::new` fails with an
error, so driver construction does not succeed. -/
theorem milvus_unknown_metric_fails :
    milvus_metric "foo" = Except.error ("Invalid metric type " ++ "foo") := by
  rfl

/-- C7 (amended): for a metric string outside the recognized set, the Redis
driver maps it (with a warning) to the `COSINE` default and construction
proceeds, while the Milvus driver rejects it: `MilvusDatabase::new` returns
an error and construction fails.  The recognized sets are
`cosine / l2 / euclidean / ip / dotproduct / innerproduct` (case-insensitive)
for Redis and `COSINE / COSINE_SIMILARITY / IP / DOT_PRODUCT / L2 /
EUCLIDEAN` (case-insensitive) for Milvus. -/
theorem metric_mapping_unknown (metric : String)
    (hr1 : strToLower metric ≠ "cosine") (hr2 : strToLower metric ≠ "l2")
    (hr3 : strToLower metric ≠ "euclidean") (hr4 : strToLower metric ≠ "ip")
    (hr5 : strToLower metric ≠ "dotproduct")
    (hr6 : strToLower metric ≠ "innerproduct")
    (hm1 : strToUpper metric ≠ "COSINE")
    (hm2 : strToUpper metric ≠ "COSINE_SIMILARITY")
    (hm3 : strToUpper metric ≠ "IP") (hm4 : strToUpper metric ≠ "DOT_PRODUCT")
    (hm5 : strToUpper metric ≠ "L2") (hm6 : strToUpper metric ≠ "EUCLIDEAN") :
    map_metric_to_redis metric = "COSINE" ∧
    milvus_metric metric = Except.error ("Invalid metric type " ++ metric) := by
  constructor
  · simp [map_metric_to_redis, hr1, hr2, hr3, hr4, hr5, hr6]
  · simp [milvus_metric, hm1, hm2, hm3, hm4, hm5, hm6]

/-- Witness for `metric_mapping_unknown` at the concrete metric `foo`. -/
theorem metric_mapping_unknown_witness :
    map_metric_to_redis "foo" = "COSINE" ∧
    milvus_metric "foo" = Except.error ("Invalid metric type " ++ "foo") :=
  metric_mapping_unknown "foo" (by decide) (by decide) (by decide) (by decide)
    (by decide) (by decide) (by decide) (by decide) (by decide) (by decide)
    (by decide) (by decide)

/-- Redis maps the unknown metric with a warning and construction proceeds:
`RedisDatabase::new` never consults the metric (redis.rs lines 16-77). -/
theorem map_metric_to_redis_foo : map_metric_to_redis "foo" = "COSINE" := by
  decide

/-! ### C4: driver vector shaping -/

/-- C4 counterexample: the Chroma driver receives an item with an empty
vector and configured dimension 4, and stores the single dummy value `[0.1]`
— a vector of length 1, not of length 4, and not a zero padding. -/
theorem chroma_empty_vector_dummy :
    chroma_stored_vectors 4 [("a", [], JValue.null)] = [[(1 / 10 : ℚ)]] ∧
    ([(1 / 10 : ℚ)].length = 4 → False) := by
  constructor
  · rfl
  · decide

/-- C4 (amended): the five drivers shape vectors differently.  Pinecone and
Chroma truncate and zero-pad a non-empty wrong-length vector to the
configured dimension; for an empty vector Pinecone inserts `dimension` dummy
`0.1` values while Chroma inserts the single-element dummy `[0.1]` (of
length 1, not `dimension`); Milvus replaces any wrong-length vector wholesale
by zeros of the configured dimension; Qdrant and Redis forward every vector
unchanged, with no shaping at all. -/
theorem driver_vector_shaping (dimension : Nat) (v : List ℚ)
    (items : List Item) :
    (v ≠ [] → v.length ≠ dimension →
      pinecone_shape dimension v =
        v.take dimension ++ List.replicate (dimension - v.length) 0 ∧
      chroma_shape dimension v =
        v.take dimension ++ List.replicate (dimension - v.length) 0) ∧
    (v = [] →
      pinecone_shape dimension v = List.replicate dimension (1 / 10 : ℚ) ∧
      chroma_shape dimension v = [(1 / 10 : ℚ)]) ∧
    (pinecone_shape dimension v).length = dimension ∧
    (v.length ≠ dimension → milvus_shape dimension v = List.replicate dimension 0) ∧
    (v ≠ [] → v.length = dimension →
      pinecone_shape dimension v = v ∧ chroma_shape dimension v = v ∧
      milvus_shape dimension v = v) ∧
    qdrant_stored_vectors items = items.map (fun it => it.2.1) ∧
    redis_stored_vectors items = items.map (fun it => it.2.1) := by
  refine ⟨?_, ?_, ?_, ?_, ?_, rfl, rfl⟩
  · intro hne hlen
    simp [pinecone_shape, chroma_shape, hne, hlen]
  · intro he
    subst he
    simp [pinecone_shape, chroma_shape]
  · by_cases he : v = []
    · subst he
      simp [pinecone_shape]
    · by_cases hlen : v.length = dimension
      · simp [pinecone_shape, he, hlen]
      · simp [pinecone_shape, he, hlen]
        rcases Nat.le_total dimension v.length with h | h
        · rw [Nat.min_eq_left h]
          omega
        · rw [Nat.min_eq_right h]
          omega
  · intro hlen
    simp [milvus_shape, hlen]
  · intro hv hlen
    have hne : ¬ v.isEmpty := by
      cases v
      · simp at hv
      · simp
    constructor
    · simp [pinecone_shape, hne, hlen]
    · constructor
      · simp [chroma_shape, hne, hlen]
      · simp [milvus_shape, hlen]

/-- Witness for `driver_vector_shaping` at dimension 4 and the concrete
vector `[2]` (non-empty, wrong length). -/
theorem driver_vector_shaping_witness :
    pinecone_shape 4 [(2 : ℚ)] = [2, 0, 0, 0] ∧
    chroma_shape 4 [(2 : ℚ)] = [2, 0, 0, 0] ∧
    milvus_shape 4 [(2 : ℚ)] = [0, 0, 0, 0] := by
  obtain ⟨h1, _, _, h4, _, _, _⟩ :=
    driver_vector_shaping 4 [(2 : ℚ)] ([] : List Item)
  obtain ⟨hp, hc⟩ := h1 (by decide) (by decide)
  refine ⟨?_, ?_, ?_⟩
  · rw [hp]
    decide
  · rw [hc]
    decide
  · rw [h4 (by decide)]
    decide

/-! ### C6: MySQL parser with undiscovered columns -/

/-- C6 counterexample: with no harvested `CREATE TABLE` columns
(`table_columns = []`), the INSERT for table `t` is skipped and no record at
all is emitted — the parser does not synthesize positional column names. -/
theorem mysql_no_columns_emits_nothing :
    parse_mysql_inserts decode0 tokenize0 [] [("t", [['1']])] = [] := by
  rfl

/-- C6 (amended): when a table's column names were not discovered by the
`CREATE TABLE` scan, the MySQL parser skips that table's INSERT statements
(with a warning) and emits no records for them, whatever the scalar decoder
and row tokenizer do. -/
theorem mysql_missing_columns_skipped (decode : String → JValue)
    (tokenize : List Char → Nat → List String)
    (table_columns : List (String × List String)) (t : String)
    (rows : List (List Char))
    (h : table_columns.find? (fun p => p.1 == t) = none) :
    parse_mysql_inserts decode tokenize table_columns [(t, rows)] = [] := by
  simp [parse_mysql_inserts, h]

/-- Witness for `mysql_missing_columns_skipped` at the concrete fixture. -/
theorem mysql_missing_columns_skipped_witness :
    parse_mysql_inserts decode0 tokenize0
      [("other", ["a", "b"])] [("t", [['1']])] = [] :=
  mysql_missing_columns_skipped decode0 tokenize0 [("other", ["a", "b"])]
    "t" [['1']] (by rfl)

/-! ### C10: byte-slice truncation in `generate_single` -/

theorem takeBytes_append (pre suf : List Char) :
    takeBytes (utf8Len pre) (pre ++ suf) = some pre := by
  induction pre with
  | nil => simp [utf8Len, takeBytes]
  | cons c p ih =>
    have hpos : 0 < c.utf8Size := Char.utf8Size_pos c
    have hlen : utf8Len (c :: p) = c.utf8Size + utf8Len p := by
      simp [utf8Len]
    rcases Nat.exists_eq_add_of_lt (show 0 < utf8Len (c :: p) by omega)
      with ⟨m, hm⟩
    rw [hlen]
    have hsum : c.utf8Size + utf8Len p = (c.utf8Size + utf8Len p - 1) + 1 := by
      omega
    rw [hsum]
    simp only [List.cons_append, takeBytes]
    have hle : c.utf8Size ≤ c.utf8Size + utf8Len p - 1 + 1 := by omega
    rw [if_pos hle]
    have : c.utf8Size + utf8Len p - 1 + 1 - c.utf8Size = utf8Len p := by omega
    rw [this]
    show Option.map (fun l => c :: l) (takeBytes (utf8Len p) (p ++ suf)) =
      some (c :: p)
    rw [ih]
    rfl

/-- C10: the single-text embedding path truncates a text whose byte length
exceeds `max_tokens` by the direct byte slice `&text[0..max_tokens]` (first
conjunct: whenever `max_tokens` lands on a character boundary, the result is
exactly the characters of the first `max_tokens` bytes); and the slicing is
not total: on the concrete text `éa` with `max_tokens = 1`, the cut falls
inside the two-byte character `é` and `generate_single` panics (modelled by
`none`) instead of returning an error value (second conjunct). -/
theorem generate_single_trim_spec :
    (∀ (maxTokens : Nat) (pre suf : List Char), utf8Len pre = maxTokens →
      maxTokens < utf8Len (pre ++ suf) →
      generate_single_trim maxTokens (pre ++ suf) = some pre) ∧
    generate_single_trim 1 ['é', 'a'] = none := by
  constructor
  · intro maxTokens pre suf hpre hlt
    rw [generate_single_trim, if_pos hlt, ← hpre, takeBytes_append]
  · decide

/-- Witness for `generate_single_trim_spec`: its universally quantified
conjunct applied at `pre = ['a']`, `suf = ['b', 'c']`, `max_tokens = 1`. -/
theorem generate_single_trim_spec_witness :
    generate_single_trim 1 (['a'] ++ ['b', 'c']) = some ['a'] :=
  generate_single_trim_spec.1 1 ['a'] ['b', 'c'] (by decide) (by decide)

/-! ### C1: count mismatch in the embedding orchestrator -/

/-- C1: evaluation of the orchestrator at the failing input.  The stubbed
provider returns 3 vectors for the 4-text chunk `["a","b","c","d"]`
(`provider0`), and the per-text fallback endpoint fails for the text `b`
(`single0`).  `process_batch_chunk` does not fail: it falls back, filters out
the failed text, and returns the three remaining vectors; the `zip` in
`process_records_with_embeddings` then pairs record `a` with `[10]`, record
`b` with `[30]` (the vector generated for `c`!), record `c` with `[40]`, and
silently drops record `d`.  The run reports no error and these three
PreparedRecords are handed on to grouping and storage — contradicting the
claim that a count mismatch fails the run with no writes. -/
theorem embedding_mismatch_produces_partial_records :
    process_records_with_embeddings provider0 single0 serialize0 16 records0 =
      some [("t", [10], JValue.obj [("k", .str "a")]),
            ("t", [30], JValue.obj [("k", .str "b")]),
            ("t", [40], JValue.obj [("k", .str "c")])] := by
  have h : chunksOf 16 records0 = [records0] := by simp [chunksOf, records0]
  simp only [process_records_with_embeddings]
  rw [h]
  rfl

/-! ### Lemmas on the batch partition -/

theorem sibPlan_flatten (toJson : JValue → String) (maxBytes : Nat) :
    ∀ (rest pending : List Item) (cur : Nat),
      (sibPlan toJson maxBytes pending rest cur).flatten = pending ++ rest := by
  intro rest
  induction rest with
  | nil =>
    intro pending cur
    by_cases h : pending.isEmpty
    · simp [sibPlan, h, List.isEmpty_iff.mp h]
    · simp [sibPlan, h]
  | cons it rest ih =>
    intro pending cur
    by_cases h : maxBytes < cur + recSize toJson it ∧ ¬ pending.isEmpty
    · simp only [sibPlan, if_pos h]
      simp [ih]
    · simp only [sibPlan, if_neg h]
      simp [ih]

theorem sibPlan_nonempty (toJson : JValue → String) (maxBytes : Nat) :
    ∀ (rest pending : List Item) (cur : Nat) (b : List Item),
      b ∈ sibPlan toJson maxBytes pending rest cur → b ≠ [] := by
  intro rest
  induction rest with
  | nil =>
    intro pending cur b hb
    by_cases h : pending.isEmpty
    · simp [sibPlan, h] at hb
    · simp [sibPlan, h] at hb
      subst hb
      simpa using h
  | cons it rest ih =>
    intro pending cur b hb
    by_cases h : maxBytes < cur + recSize toJson it ∧ ¬ pending.isEmpty
    · rw [sibPlan, if_pos h] at hb
      rcases List.mem_cons.mp hb with hb | hb
      · subst hb
        simpa using h.2
      · exact ih [it] (recSize toJson it) b hb
    · rw [sibPlan, if_neg h] at hb
      exact ih (pending ++ [it]) (cur + recSize toJson it) b hb

theorem sibPlan_budget (toJson : JValue → String) (maxBytes : Nat) :
    ∀ (rest pending : List Item) (cur : Nat),
      cur = batchSize toJson pending →
      (batchSize toJson pending ≤ maxBytes ∨ ∃ it, pending = [it]) →
      ∀ b ∈ sibPlan toJson maxBytes pending rest cur,
        batchSize toJson b ≤ maxBytes ∨
          ∃ it, b = [it] ∧ maxBytes < recSize toJson it := by
  intro rest
  induction rest with
  | nil =>
    intro pending cur hcur hinv b hb
    by_cases h : pending.isEmpty
    · simp [sibPlan, h] at hb
    · simp [sibPlan, h] at hb
      subst hb
      rcases hinv with hle | ⟨it, hit⟩
      · exact Or.inl hle
      · by_cases hle : batchSize toJson b ≤ maxBytes
        · exact Or.inl hle
        · refine Or.inr ⟨it, hit, ?_⟩
          have : batchSize toJson b = recSize toJson it := by
            simp [hit, batchSize]
          omega
  | cons it rest ih =>
    intro pending cur hcur hinv b hb
    by_cases h : maxBytes < cur + recSize toJson it ∧ ¬ pending.isEmpty
    · rw [sibPlan, if_pos h] at hb
      rcases List.mem_cons.mp hb with hb | hb
      · subst hb
        rcases hinv with hle | ⟨jt, hjt⟩
        · exact Or.inl hle
        · by_cases hle : batchSize toJson b ≤ maxBytes
          · exact Or.inl hle
          · refine Or.inr ⟨jt, hjt, ?_⟩
            have : batchSize toJson b = recSize toJson jt := by
              simp [hjt, batchSize]
            omega
      · exact ih [it] (recSize toJson it) (by simp [batchSize])
          (Or.inr ⟨it, rfl⟩) b hb
    · rw [sibPlan, if_neg h] at hb
      refine ih (pending ++ [it]) (cur + recSize toJson it) ?_ ?_ b hb
      · simp [batchSize, hcur]
      · rcases Decidable.em pending.isEmpty with he | he
        · right
          refine ⟨it, ?_⟩
          rw [List.isEmpty_iff.mp he]
          rfl
        · left
          have hnot : ¬ maxBytes < cur + recSize toJson it := fun hc => h ⟨hc, he⟩
          have hsum : batchSize toJson (pending ++ [it]) =
              batchSize toJson pending + recSize toJson it := by
            simp [batchSize]
          omega

theorem sibRun_ok_driver (toJson : JValue → String) (maxBytes : Nat)
    (t : String) :
    ∀ (rest pending : List Item) (cur : Nat),
      sibRun okDriver toJson maxBytes t pending rest cur =
        ((sibPlan toJson maxBytes pending rest cur).map (fun b => (t, b)),
          Except.ok ()) := by
  intro rest
  induction rest with
  | nil =>
    intro pending cur
    by_cases h : pending.isEmpty
    · simp [sibRun, sibPlan, h]
    · simp [sibRun, sibPlan, h, okDriver]
  | cons it rest ih =>
    intro pending cur
    by_cases h : maxBytes < cur + recSize toJson it ∧ ¬ pending.isEmpty
    · simp only [sibRun, sibPlan, if_pos h, okDriver]
      simp [ih]
    · simp only [sibRun, sibPlan, if_neg h, okDriver]
      simp [ih]

theorem chunksOf_flatten_aux (n : Nat) (hn : 0 < n) :
    ∀ (len : Nat) (l : List α), l.length = len →
      (chunksOf n l).flatten = l := by
  intro len
  induction len using Nat.strong_induction_on with
  | _ len ih =>
    intro l hlen
    cases l with
    | nil => simp [chunksOf]
    | cons a as =>
      cases n with
      | zero => omega
      | succ m =>
        rw [chunksOf]
        simp only [List.flatten_cons]
        rw [ih ((a :: as).drop (m + 1)).length
          (by simp at hlen ⊢; omega) ((a :: as).drop (m + 1)) rfl]
        exact List.take_append_drop (m + 1) (a :: as)

theorem chunksOf_flatten (n : Nat) (hn : 0 < n) (l : List α) :
    (chunksOf n l).flatten = l :=
  chunksOf_flatten_aux n hn l.length l rfl

theorem chunksOf_mem_length_aux (n : Nat) :
    ∀ (len : Nat) (l : List α), l.length = len →
      ∀ c ∈ chunksOf n l, c.length ≤ n := by
  intro len
  induction len using Nat.strong_induction_on with
  | _ len ih =>
    intro l hlen c hc
    cases l with
    | nil => simp [chunksOf] at hc
    | cons a as =>
      cases n with
      | zero => simp [chunksOf] at hc
      | succ m =>
        rw [chunksOf] at hc
        rcases List.mem_cons.mp hc with hc | hc
        · subst hc
          exact List.length_take_le (m + 1) (a :: as)
        · exact ih ((a :: as).drop (m + 1)).length
            (by simp at hlen ⊢; omega) ((a :: as).drop (m + 1)) rfl c hc

theorem chunksOf_mem_length (n : Nat) (l : List α) :
    ∀ c ∈ chunksOf n l, c.length ≤ n :=
  chunksOf_mem_length_aux n l.length l rfl

theorem seqRun_ok (f : α → List Call × Except String Unit) :
    ∀ l : List α, (∀ a ∈ l, (f a).2 = Except.ok ()) →
      seqRun f l = (l.flatMap (fun a => (f a).1), Except.ok ()) := by
  intro l
  induction l with
  | nil => intro _; simp [seqRun]
  | cons a as ih =>
    intro h
    have ha := h a (by simp)
    have has : ∀ x ∈ as, (f x).2 = Except.ok () := fun x hx => h x (by simp [hx])
    rw [seqRun]
    cases hfa : f a with
    | mk cs res =>
      rw [hfa] at ha
      simp at ha
      subst ha
      simp [ih has, hfa]

theorem goodOut_sibRun (driver : Driver) (toJson : JValue → String)
    (maxBytes : Nat) (t : String) :
    ∀ (rest pending : List Item) (cur : Nat),
      GoodOut driver (sibRun driver toJson maxBytes t pending rest cur) := by
  intro rest
  induction rest with
  | nil =>
    intro pending cur
    by_cases h : pending.isEmpty
    · simp [sibRun, h, GoodOut]
    · rw [sibRun, if_neg h]
      cases hd : driver t pending with
      | ok u =>
        simp [GoodOut, hd]
      | error e =>
        simp only [GoodOut, hd]
        exact ⟨[], (t, pending), by simp, by simp, hd⟩
  | cons it rest ih =>
    intro pending cur
    by_cases h : maxBytes < cur + recSize toJson it ∧ ¬ pending.isEmpty
    · rw [sibRun, if_pos h]
      cases hd : driver t pending with
      | ok u =>
        have hres := ih [it] (recSize toJson it)
        cases hr : (sibRun driver toJson maxBytes t [it] rest
            (recSize toJson it)).2 with
        | ok v =>
          simp only [GoodOut, hr] at hres
          simp only [GoodOut, hr]
          intro c hc
          rcases List.mem_cons.mp hc with hc | hc
          · subst hc
            exact hd
          · exact hres c hc
        | error e =>
          simp only [GoodOut, hr] at hres
          simp only [GoodOut, hr]
          obtain ⟨pre, last, h1, h2, h3⟩ := hres
          refine ⟨(t, pending) :: pre, last, by simp [h1], ?_, h3⟩
          intro c hc
          rcases List.mem_cons.mp hc with hc | hc
          · subst hc
            exact hd
          · exact h2 c hc
      | error e =>
        simp only [GoodOut]
        exact ⟨[], (t, pending), by simp, by simp, hd⟩
    · rw [sibRun, if_neg h]
      exact ih (pending ++ [it]) (cur + recSize toJson it)

theorem goodOut_seqRun (driver : Driver)
    (f : α → List Call × Except String Unit)
    (hf : ∀ a, GoodOut driver (f a)) :
    ∀ l : List α, GoodOut driver (seqRun f l) := by
  intro l
  induction l with
  | nil => simp [seqRun, GoodOut]
  | cons a as ih =>
    rw [seqRun]
    cases hfa : f a with
    | mk cs res =>
      cases res with
      | ok u =>
        have hcs : ∀ c ∈ cs, driver c.1 c.2 = Except.ok () := by
          have := hf a
          rw [hfa] at this
          simpa [GoodOut] using this
        cases hr : (seqRun f as).2 with
        | ok v =>
          simp only [GoodOut, hr] at ih
          simp only [GoodOut, hr]
          intro c hc
          rcases List.mem_append.mp hc with hc | hc
          · exact hcs c hc
          · exact ih c hc
        | error e =>
          simp only [GoodOut, hr] at ih
          simp only [GoodOut, hr]
          obtain ⟨pre, last, h1, h2, h3⟩ := ih
          refine ⟨cs ++ pre, last, by simp [h1], ?_, h3⟩
          intro c hc
          rcases List.mem_append.mp hc with hc | hc
          · exact hcs c hc
          · exact h2 c hc
      | error e =>
        have := hf a
        rw [hfa] at this
        simpa [GoodOut] using this

theorem goodOut_run_storage (driver : Driver) (toJson : JValue → String)
    (chunkSize maxBytes : Nat) (groups : List (String × List Item)) :
    GoodOut driver (run_storage driver toJson chunkSize maxBytes groups) := by
  unfold run_storage store_group_run
  exact goodOut_seqRun driver _
    (fun g => goodOut_seqRun driver _
      (fun c => goodOut_sibRun driver toJson maxBytes g.1 c [] 0) _) groups

/-! ### C9: the migration stops at the first store failure -/

/-- C9: if the storing loop of `execute_migration_workflow` ends with a store
error `e`, then `e` came from the last issued `store_vector` call: every call
issued before it succeeded, the failing call is the final element of the call
sequence, and no call was issued for any remaining batch or table group after
it (the error is surfaced immediately as the run's result). -/
theorem workflow_stops_at_first_store_error (driver : Driver)
    (toJson : JValue → String) (chunkSize maxBytes : Nat)
    (groups : List (String × List Item)) (e : String)
    (h : (run_storage driver toJson chunkSize maxBytes groups).2 =
      Except.error e) :
    ∃ pre last,
      (run_storage driver toJson chunkSize maxBytes groups).1 =
        pre ++ [last] ∧
      (∀ c ∈ pre, driver c.1 c.2 = Except.ok ()) ∧
      driver last.1 last.2 = Except.error e := by
  have hg := goodOut_run_storage driver toJson chunkSize maxBytes groups
  rw [GoodOut, h] at hg
  exact hg

/-- Witness for `workflow_stops_at_first_store_error`: under `driver0` (which
rejects table `bad`) the run over `groups0` errors with `boom`, the issued
calls end at the failing call, and the group `after` is never flushed. -/
theorem workflow_stops_at_first_store_error_witness :
    ∃ pre last,
      (run_storage driver0 toJson0 1 100 groups0).1 = pre ++ [last] ∧
      (∀ c ∈ pre, driver0 c.1 c.2 = Except.ok ()) ∧
      driver0 last.1 last.2 = Except.error "boom" :=
  workflow_stops_at_first_store_error driver0 toJson0 1 100 groups0 "boom"
    (by
      have hc : chunksOf 1 [(("", [], JValue.null) : Item)] =
          [[("", [], JValue.null)]] := by simp [chunksOf]
      simp [run_storage, store_group_run, seqRun, sibRun, driver0, groups0,
        hc, item0, recSize, toJson0])

/-! ### C3: batch partition of the workflow -/

/-- C3 counterexample: with payload budget 0 and chunk size 1, the single
item `item0` — whose serialized size is 4 bytes — is still handed to
`store_vector` as a batch of its own, and that batch's cumulative size
exceeds the budget. -/
theorem store_in_batches_oversized_singleton :
    group_batches toJson0 1 0 [item0] = [[item0]] ∧
    batchSize toJson0 [item0] = 4 ∧
    ¬ (batchSize toJson0 [item0] ≤ 0) ∧
    store_group_run okDriver toJson0 1 0 "t" [item0] =
      ([("t", [item0])], Except.ok ()) := by
  have hc : chunksOf 1 [item0] = [[item0]] := by simp [chunksOf]
  refine ⟨?_, by decide, by decide, ?_⟩
  · simp only [group_batches]
    rw [hc]
    rfl
  · simp only [store_group_run]
    rw [hc]
    rfl

/-- C3 (amended): for every table group, the Batch Controller partitions the
items into contiguous batches whose in-order concatenation equals the items;
every batch is non-empty and no longer than the configured chunk size; and
every batch's cumulative serialized size is within the payload budget
*unless* it is a singleton batch whose sole item's serialized size alone
already exceeds the budget (such an item is still stored, in a batch of its
own).  With an always-succeeding driver the issued `store_vector` calls are
exactly these batches, in order. -/
theorem batch_controller_partition (toJson : JValue → String)
    (chunkSize maxBytes : Nat) (items : List Item) (t : String)
    (h : 0 < chunkSize) :
    (group_batches toJson chunkSize maxBytes items).flatten = items ∧
    (∀ b ∈ group_batches toJson chunkSize maxBytes items,
      b ≠ [] ∧ b.length ≤ chunkSize ∧
        (batchSize toJson b ≤ maxBytes ∨
          ∃ it, b = [it] ∧ maxBytes < recSize toJson it)) ∧
    store_group_run okDriver toJson chunkSize maxBytes t items =
      ((group_batches toJson chunkSize maxBytes items).map (fun b => (t, b)),
        Except.ok ()) := by
  refine ⟨?_, ?_, ?_⟩
  · have haux : ∀ cs : List (List Item),
        (cs.flatMap (fun c => sibPlan toJson maxBytes [] c 0)).flatten =
          cs.flatten := by
      intro cs
      induction cs with
      | nil => simp
      | cons c cs ih =>
        simp only [List.flatMap_cons, List.flatten_append, ih,
          List.flatten_cons]
        rw [sibPlan_flatten]
        simp
    rw [group_batches, haux, chunksOf_flatten chunkSize h]
  · intro b hb
    rw [group_batches] at hb
    obtain ⟨c, hc, hbc⟩ := List.mem_flatMap.mp hb
    refine ⟨sibPlan_nonempty toJson maxBytes c [] 0 b hbc, ?_, ?_⟩
    · have h1 : b.length ≤ (sibPlan toJson maxBytes [] c 0).flatten.length := by
        rw [List.length_flatten]
        exact List.le_sum_of_mem (List.mem_map_of_mem List.length hbc)
      rw [sibPlan_flatten] at h1
      simp at h1
      exact h1.trans (chunksOf_mem_length chunkSize items c hc)
    · exact sibPlan_budget toJson maxBytes c [] 0 (by simp [batchSize])
        (Or.inl (by simp [batchSize])) b hbc
  · rw [store_group_run, group_batches]
    rw [seqRun_ok _ _ (fun c hc => by rw [sibRun_ok_driver])]
    congr 1
    rw [List.map_flatMap]
    refine List.flatMap_congr ?_
    intro c hc
    rw [sibRun_ok_driver]

/-- Witness for `batch_controller_partition` at chunk size 2, budget 6 and a
three-item group: each `item0` serializes to 4 bytes, so within each
chunk-size-2 chunk the 6-byte budget forces a flush after every item and the
partition is the three singletons `[[item0], [item0], [item0]]`; their
concatenation is the group, and the ok-driver run issues exactly those
calls. -/
theorem batch_controller_partition_witness :
    (group_batches toJson0 2 6 [item0, item0, item0]).flatten =
      [item0, item0, item0] ∧
    store_group_run okDriver toJson0 2 6 "t" [item0, item0, item0] =
      ((group_batches toJson0 2 6 [item0, item0, item0]).map
        (fun b => ("t", b)), Except.ok ()) := by
  obtain ⟨h1, _, h3⟩ :=
    batch_controller_partition toJson0 2 6 [item0, item0, item0] "t"
      (by decide)
  exact ⟨h1, h3⟩

/-! ### Lemmas on keys of the map model -/

theorem mem_mapKeys_mapInsert (k j : String) (v : JValue) (m : Jmap) :
    j ∈ mapKeys (mapInsert k v m) ↔ j = k ∨ j ∈ mapKeys m := by
  induction m with
  | nil => simp [mapInsert, mapKeys]
  | cons hd tl ih =>
    obtain ⟨k', v'⟩ := hd
    by_cases h : k = k'
    · subst h
      simp [mapInsert, mapKeys]
    · by_cases h2 : k < k'
      · simp [mapInsert, h, h2, mapKeys]
      · simp only [mapInsert, if_neg h, if_neg h2]
        simp only [mapKeys, List.map_cons, List.mem_cons] at ih ⊢
        rw [ih]
        tauto

theorem mapKeys_mapRemove (k : String) (m : Jmap) :
    mapKeys (mapRemove k m) = (mapKeys m).erase k := by
  induction m with
  | nil => simp [mapRemove, mapKeys]
  | cons hd tl ih =>
    obtain ⟨k', v'⟩ := hd
    by_cases h : k = k'
    · subst h
      simp [mapRemove, mapKeys, List.erase_cons_head]
    · rw [mapRemove, if_neg h]
      simp only [mapKeys, List.map_cons] at ih ⊢
      rw [List.erase_cons_tail, ih]
      simp [Ne.symm h]

theorem mapFind_mapRemove_ne (k j : String) (m : Jmap) (h : j ≠ k) :
    mapFind j (mapRemove k m) = mapFind j m := by
  induction m with
  | nil => simp [mapRemove]
  | cons hd tl ih =>
    obtain ⟨k', v'⟩ := hd
    by_cases h1 : k = k'
    · subst h1
      rw [mapRemove, if_pos rfl, mapFind, if_neg h]
    · rw [mapRemove, if_neg h1]
      by_cases h2 : j = k'
      · simp [mapFind, h2]
      · rw [mapFind, if_neg h2, mapFind, if_neg h2, ih]

theorem hasKey_iff_mem (k : String) (m : Jmap) :
    hasKey k m = true ↔ k ∈ mapKeys m := by
  induction m with
  | nil => simp [hasKey, mapFind, mapKeys]
  | cons hd tl ih =>
    obtain ⟨k', v'⟩ := hd
    by_cases h : k = k'
    · simp [hasKey, mapFind, h, mapKeys]
    · rw [hasKey, mapFind, if_neg h]
      have hk : mapKeys ((k', v') :: tl) = k' :: mapKeys tl := rfl
      rw [hk, List.mem_cons, ← ih]
      simp [hasKey, h]

theorem sorted_mapInsert (k : String) (v : JValue) (m : Jmap)
    (h : m.Pairwise (fun a b => a.1 < b.1)) :
    (mapInsert k v m).Pairwise (fun a b => a.1 < b.1) := by
  induction m with
  | nil => simp [mapInsert]
  | cons hd tl ih =>
    obtain ⟨k', v'⟩ := hd
    rw [List.pairwise_cons] at h
    by_cases h1 : k = k'
    · subst h1
      rw [mapInsert, if_pos rfl, List.pairwise_cons]
      exact ⟨h.1, h.2⟩
    · by_cases h2 : k < k'
      · rw [mapInsert, if_neg h1, if_pos h2, List.pairwise_cons]
        constructor
        · intro x hx
          rcases List.mem_cons.mp hx with hx | hx
          · subst hx
            exact h2
          · exact h2.trans (h.1 x hx)
        · rw [List.pairwise_cons]
          exact ⟨h.1, h.2⟩
      · have h3 : k' < k :=
          lt_of_le_of_ne (not_lt.mp h2) (Ne.symm h1)
        rw [mapInsert, if_neg h1, if_neg h2, List.pairwise_cons]
        constructor
        · intro x hx
          have hx' : x.1 ∈ mapKeys (mapInsert k v tl) :=
            List.mem_map_of_mem Prod.fst hx
          rcases (mem_mapKeys_mapInsert k x.1 v tl).mp hx' with hx' | hx'
          · rw [hx']
            exact h3
          · obtain ⟨y, hy, hxy⟩ := List.mem_map.mp hx'
            have := h.1 y hy
            exact hxy ▸ this
        · exact ih h.2

theorem mapKeys_nodup_of_sorted (m : Jmap)
    (h : m.Pairwise (fun a b => a.1 < b.1)) : (mapKeys m).Nodup := by
  have hp : (mapKeys m).Pairwise (· < ·) :=
    List.Pairwise.map Prod.fst (fun a b hab => hab) h
  exact hp.imp ne_of_lt

theorem mapKeys_cleanPairs (m : Jmap) :
    mapKeys (cleanPairs m) = mapKeys m := by
  induction m with
  | nil => simp [cleanPairs, mapKeys]
  | cons hd tl ih =>
    obtain ⟨k, v⟩ := hd
    simp only [cleanPairs, mapKeys, List.map_cons] at ih ⊢
    rw [ih]

theorem mapFind_cleanPairs (k : String) (m : Jmap) :
    mapFind k (cleanPairs m) = (mapFind k m).map cleanValue := by
  induction m with
  | nil => simp [cleanPairs, mapFind]
  | cons hd tl ih =>
    obtain ⟨k', v'⟩ := hd
    by_cases h : k = k'
    · simp [cleanPairs, mapFind, h]
    · simp [cleanPairs, mapFind, h, ih]

theorem mem_mapKeys_foldl (fields : List (String × JValue)) :
    ∀ (m0 : Jmap) (j : String),
      j ∈ mapKeys (fields.foldl (fun m kv => mapInsert kv.1 kv.2 m) m0) →
      j ∈ mapKeys m0 ∨ j ∈ fields.map Prod.fst := by
  induction fields with
  | nil => intro m0 j hj; exact Or.inl hj
  | cons kv fields ih =>
    intro m0 j hj
    rcases ih (mapInsert kv.1 kv.2 m0) j hj with hj | hj
    · rcases (mem_mapKeys_mapInsert kv.1 j kv.2 m0).mp hj with hj | hj
      · exact Or.inr (by simp [hj])
      · exact Or.inl hj
    · exact Or.inr (by simp [hj])

theorem mem_mapKeys_foldl_of_mem (fields : List (String × JValue)) :
    ∀ (m0 : Jmap) (j : String), j ∈ mapKeys m0 →
      j ∈ mapKeys (fields.foldl (fun m kv => mapInsert kv.1 kv.2 m) m0) := by
  induction fields with
  | nil => intro m0 j hj; exact hj
  | cons kv fields ih =>
    intro m0 j hj
    exact ih (mapInsert kv.1 kv.2 m0) j
      ((mem_mapKeys_mapInsert kv.1 j kv.2 m0).mpr (Or.inr hj))

theorem sorted_foldl (fields : List (String × JValue)) :
    ∀ m0 : Jmap, m0.Pairwise (fun a b => a.1 < b.1) →
      (fields.foldl (fun m kv => mapInsert kv.1 kv.2 m) m0).Pairwise
        (fun a b => a.1 < b.1) := by
  induction fields with
  | nil => intro m0 h; exact h
  | cons kv fields ih =>
    intro m0 h
    exact ih (mapInsert kv.1 kv.2 m0) (sorted_mapInsert kv.1 kv.2 m0 h)

theorem mapFind_foldl_ne (fields : List (String × JValue)) :
    ∀ (m0 : Jmap) (j : String), j ∉ fields.map Prod.fst →
      mapFind j (fields.foldl (fun m kv => mapInsert kv.1 kv.2 m) m0) =
        mapFind j m0 := by
  induction fields with
  | nil => intro m0 j _; rfl
  | cons kv fields ih =>
    intro m0 j hj
    simp only [List.map_cons, List.mem_cons] at hj
    push_neg at hj
    rw [List.foldl_cons, ih (mapInsert kv.1 kv.2 m0) j hj.2,
      mapFind_mapInsert_ne kv.1 j kv.2 m0 hj.1]

theorem findCiKey_eq_none_iff (k : String) (m : Jmap) :
    findCiKey k m = none ↔ ∀ j ∈ mapKeys m, ciEq j k = false := by
  rw [findCiKey, List.find?_eq_none]
  constructor
  · intro h j hj
    simpa using h j hj
  · intro h j hj
    simp [h j hj]

theorem findCiKey_eq_some (k j : String) (m : Jmap)
    (h : findCiKey k m = some j) : j ∈ mapKeys m ∧ ciEq j k = true := by
  rw [findCiKey] at h
  exact ⟨List.mem_of_find?_eq_some h, by simpa using List.find?_some h⟩

theorem cleanString_of_no_lt (s : String)
    (h : s.data.contains '<' = false) : cleanString s = s := by
  rw [cleanString, cleanChars, if_neg]
  intro hc
  rw [h] at hc
  simp at hc

/-! ### C2: records emitted by the parsers -/

/-- C2 counterexample: the SurrealDB parser's direct-JSON path.  For the dump
fragment `{ "id": "x", "name": "Ada" }` (which `serde_json` parses as a map
directly, surreal.rs line 83) under a `-- TABLE DATA: person` header, the
emitted record keeps its `id` key: no `id` stripping happens on this path. -/
theorem surreal_json_path_keeps_id :
    surrealJsonItem [("id", .str "x"), ("name", .str "Ada")] "person" =
      JValue.obj
        [("id", .str "x"), ("name", .str "Ada"), ("table", .str "person")] ∧
    hasKeyCi "id"
      [("id", JValue.str "x"), ("name", JValue.str "Ada"),
        ("table", JValue.str "person")] = true := by
  constructor
  · simp +decide [surrealJsonItem, mapInsert, cleanValue, cleanPairs,
      cleanString, cleanChars]
  · decide

/-- C2 (amended): every record emitted by the record-construction stage of
the MySQL, Postgres, Oracle, SQLite and MSSQL parsers carries a `table` key;
when the incoming column names contain no spelling of `id` other than the
exact lowercase `id`, no ASCII-case-insensitive `id` key survives in the
emitted record (the code removes only the first such key, so two distinct
spellings could leave one behind); and when no column is literally named
`table`, the `table` key holds exactly the source-table string.  The
SurrealDB parser's paths guarantee less: both paths tag the record with a
`table` key, the regex-fallback path strips only the exact lowercase key
`id`, and the direct-JSON path strips nothing. -/
theorem parser_record_invariants :
    (∀ (table : String) (fields : List (String × JValue)) (r : JValue),
      buildSqlRecord table fields = some r →
      ∃ m, r = JValue.obj m ∧ hasKey "table" m = true ∧
        ((∀ j ∈ fields.map Prod.fst, ciEq j "id" = true → j = "id") →
          hasKeyCi "id" m = false) ∧
        ("table" ∉ fields.map Prod.fst → table.data.contains '<' = false →
          mapFind "table" m = some (.str table))) ∧
    (∀ (m : Jmap) (table : String),
      ∃ m', surrealJsonItem m table = JValue.obj m' ∧
        hasKey "table" m' = true) ∧
    (∀ (caps : List (String × JValue)) (table : String) (r : JValue),
      surrealFallbackItem caps table = some r →
      ∃ m', r = JValue.obj m' ∧ hasKey "table" m' = true ∧
        hasKey "id" m' = false) := by
  refine ⟨?_, ?_, ?_⟩
  · intro table fields r hr
    have hsorted := sorted_foldl fields (mapInsert "table" (.str table) [])
      (by simp [mapInsert])
    have hnodup := mapKeys_nodup_of_sorted _ hsorted
    have htbl : "table" ∈ mapKeys
        (fields.foldl (fun m kv => mapInsert kv.1 kv.2 m)
          (mapInsert "table" (.str table) [])) :=
      mem_mapKeys_foldl_of_mem fields _ "table" (by simp [mapInsert, mapKeys])
    have hksub : ∀ j ∈ mapKeys
        (fields.foldl (fun m kv => mapInsert kv.1 kv.2 m)
          (mapInsert "table" (.str table) [])),
        j = "table" ∨ j ∈ fields.map Prod.fst := by
      intro j hj
      rcases mem_mapKeys_foldl fields _ j hj with hj | hj
      · left
        simpa [mapInsert, mapKeys] using hj
      · exact Or.inr hj
    simp only [buildSqlRecord] at hr
    set obj := fields.foldl (fun m kv => mapInsert kv.1 kv.2 m)
      (mapInsert "table" (.str table) []) with hobj
    cases hfind : findCiKey "id" obj with
    | none =>
      rw [hfind] at hr
      split at hr
      case isFalse => exact absurd hr (by simp)
      case isTrue hlen =>
        have hre : r = JValue.obj (cleanPairs obj) := by
          have := Option.some.inj hr
          rw [← this]
          simp [cleanValue]
        refine ⟨cleanPairs obj, hre, ?_, ?_, ?_⟩
        · rw [hasKey_iff_mem, mapKeys_cleanPairs]
          exact htbl
        · intro _
          have hnone : findCiKey "id" (cleanPairs obj) = none := by
            rw [findCiKey_eq_none_iff, mapKeys_cleanPairs]
            exact (findCiKey_eq_none_iff "id" obj).mp hfind
          rw [hasKeyCi, hnone]
          rfl
        · intro hnotbl hnolt
          rw [mapFind_cleanPairs, hobj, mapFind_foldl_ne fields _ _ hnotbl,
            mapFind_mapInsert_self]
          simp [cleanValue, cleanString_of_no_lt table hnolt]
    | some k =>
      obtain ⟨hkmem, hkci⟩ := findCiKey_eq_some "id" k obj hfind
      have hknotbl : k ≠ "table" := by
        intro hk
        rw [hk] at hkci
        exact absurd hkci (by decide)
      rw [hfind] at hr
      split at hr
      case isFalse => exact absurd hr (by simp)
      case isTrue hlen =>
        have hre : r = JValue.obj (cleanPairs (mapRemove k obj)) := by
          have := Option.some.inj hr
          rw [← this]
          simp [cleanValue]
        refine ⟨cleanPairs (mapRemove k obj), hre, ?_, ?_, ?_⟩
        · rw [hasKey_iff_mem, mapKeys_cleanPairs, mapKeys_mapRemove]
          exact (List.mem_erase_of_ne (Ne.symm hknotbl)).mpr htbl
        · intro hci
          have hkid : k = "id" := by
            rcases hksub k hkmem with hk | hk
            · exact absurd hk hknotbl
            · exact hci k hk hkci
          have hnone : findCiKey "id" (cleanPairs (mapRemove k obj)) = none := by
            rw [findCiKey_eq_none_iff, mapKeys_cleanPairs, mapKeys_mapRemove]
            intro j hj
            by_contra hjc
            have hjci : ciEq j "id" = true := by
              cases hcase : ciEq j "id"
              · exact absurd hcase hjc
              · rfl
            have hjmem : j ∈ mapKeys obj := List.mem_of_mem_erase hj
            have hjid : j = "id" := by
              rcases hksub j hjmem with hjk | hjk
              · rw [hjk] at hjci
                exact absurd hjci (by decide)
              · exact hci j hjk hjci
            rw [hkid, hjid] at hj
            exact absurd ((hnodup.mem_erase_iff).mp hj).1 (by simp)
          rw [hasKeyCi, hnone]
          rfl
        · intro hnotbl hnolt
          rw [mapFind_cleanPairs, mapFind_mapRemove_ne k "table" obj
            (Ne.symm hknotbl), hobj, mapFind_foldl_ne fields _ _ hnotbl,
            mapFind_mapInsert_self]
          simp [cleanValue, cleanString_of_no_lt table hnolt]
  · intro m table
    refine ⟨cleanPairs (mapInsert "table" (.str table) m), by
      simp [surrealJsonItem, cleanValue], ?_⟩
    rw [hasKey_iff_mem, mapKeys_cleanPairs]
    exact (mem_mapKeys_mapInsert "table" "table" (.str table) m).mpr
      (Or.inl rfl)
  · intro caps table r hr
    have hsorted := sorted_mapInsert "table" (.str table)
      (caps.foldl (fun m kv => mapInsert kv.1 kv.2 m) [])
      (sorted_foldl caps [] (by simp))
    have hnodup := mapKeys_nodup_of_sorted _ hsorted
    simp only [surrealFallbackItem] at hr
    split at hr
    case isFalse => exact absurd hr (by simp)
    case isTrue hlen =>
      have hre : r = JValue.obj (cleanPairs (mapRemove "id"
          (mapInsert "table" (.str table)
            (caps.foldl (fun m kv => mapInsert kv.1 kv.2 m) [])))) := by
        have := Option.some.inj hr
        rw [← this]
        simp [cleanValue]
      refine ⟨_, hre, ?_, ?_⟩
      · rw [hasKey_iff_mem, mapKeys_cleanPairs, mapKeys_mapRemove]
        refine (List.mem_erase_of_ne (by decide)).mpr ?_
        exact (mem_mapKeys_mapInsert "table" "table" (.str table) _).mpr
          (Or.inl rfl)
      · rw [← Bool.not_eq_true, hasKey_iff_mem, mapKeys_cleanPairs,
          mapKeys_mapRemove]
        intro hmem
        exact absurd ((hnodup.mem_erase_iff).mp hmem).1 (by simp)

/-- Witness for `parser_record_invariants`: its first conjunct applied to the
concrete row `name = Ada, ID-column = 7` of table `person` (the single
case-insensitive `id` column is spelled exactly `id`). -/
theorem parser_record_invariants_witness :
    ∃ m, buildSqlRecord "person" [("id", JValue.num 7), ("name", JValue.str "Ada")] =
        some (JValue.obj m) ∧ hasKey "table" m = true ∧
        hasKeyCi "id" m = false ∧ mapFind "table" m = some (.str "person") := by
  have hb : ∃ r, buildSqlRecord "person"
      [("id", JValue.num 7), ("name", JValue.str "Ada")] = some r := by
    simp +decide [buildSqlRecord, mapInsert, findCiKey, mapKeys, ciEq,
      asciiLower, mapRemove]
  obtain ⟨r, hr⟩ := hb
  obtain ⟨m, hm, h1, h2, h3⟩ :=
    parser_record_invariants.1 "person"
      [("id", JValue.num 7), ("name", JValue.str "Ada")] r hr
  exact ⟨m, by rw [← hm]; exact hr, h1, h2 (by decide), h3 (by decide) (by decide)⟩

/-! ### C8: lemmas on the HTML cleaner, character level -/

theorem char_contains_iff (l : List Char) (a : Char) :
    l.contains a = true ↔ a ∈ l := by
  simp [List.contains_eq_any_beq]

theorem htmlRender_subset_aux :
    ∀ (len : Nat) (l : List Char), l.length = len →
      ∀ x ∈ htmlRender l, x ∈ l := by
  intro len
  induction len using Nat.strong_induction_on with
  | _ len ih =>
    intro l hlen x hx
    cases l with
    | nil => simp [htmlRender] at hx
    | cons c cs =>
      rw [htmlRender] at hx
      by_cases h : c = '<' ∧ cs.contains '>'
      · rw [if_pos h] at hx
        have hsub :=
          (List.dropWhile_sublist (p := fun d => !decide (d = '>'))
            (l := cs)).length_le
        have hx2 := ih ((cs.dropWhile (fun d => d ≠ '>')).drop 1).length
          (by simp at hlen ⊢; omega) _ rfl x hx
        have hx3 : x ∈ cs.dropWhile (fun d => d ≠ '>') :=
          List.mem_of_mem_drop hx2
        have hx4 : x ∈ cs :=
          (List.dropWhile_sublist (p := fun d => decide (d ≠ '>'))
            (l := cs)).mem hx3
        exact List.mem_cons_of_mem c hx4
      · rw [if_neg h] at hx
        rcases List.mem_cons.mp hx with hx | hx
        · exact hx ▸ List.mem_cons_self c cs
        · exact List.mem_cons_of_mem c
            (ih cs.length (by simp at hlen; omega) cs rfl x hx)

theorem htmlRender_subset (l : List Char) : ∀ x ∈ htmlRender l, x ∈ l :=
  htmlRender_subset_aux l.length l rfl

theorem noLtGt_of_not_contains (l : List Char) (h : '>' ∉ l) :
    noLtGt l = true := by
  induction l with
  | nil => rfl
  | cons c cs ih =>
    rw [noLtGt]
    by_cases hc : c = '<'
    · rw [if_pos hc]
      simp only [List.mem_cons, not_or] at h
      simp only [Bool.not_eq_true']
      cases hcc : cs.contains '>'
      · rfl
      · exact absurd (char_contains_iff _ _ |>.mp hcc) h.2
    · rw [if_neg hc]
      exact ih (fun hm => h (List.mem_cons_of_mem c hm))

theorem noLtGt_htmlRender_aux :
    ∀ (len : Nat) (l : List Char), l.length = len →
      noLtGt (htmlRender l) = true := by
  intro len
  induction len using Nat.strong_induction_on with
  | _ len ih =>
    intro l hlen
    cases l with
    | nil => simp [htmlRender, noLtGt]
    | cons c cs =>
      rw [htmlRender]
      by_cases h : c = '<' ∧ cs.contains '>'
      · rw [if_pos h]
        have hsub :=
          (List.dropWhile_sublist (p := fun d => !decide (d = '>'))
            (l := cs)).length_le
        exact ih ((cs.dropWhile (fun d => d ≠ '>')).drop 1).length
          (by simp at hlen ⊢; omega) _ rfl
      · rw [if_neg h]
        rw [noLtGt]
        by_cases hc : c = '<'
        · rw [if_pos hc]
          have hng : '>' ∉ cs := by
            intro hmem
            exact h ⟨hc, char_contains_iff _ _ |>.mpr hmem⟩
          have hout : '>' ∉ htmlRender cs := fun hm =>
            hng (htmlRender_subset cs '>' hm)
          simp only [Bool.not_eq_true']
          cases hcc : (htmlRender cs).contains '>'
          · rfl
          · exact absurd (char_contains_iff _ _ |>.mp hcc) hout
        · rw [if_neg hc]
          exact ih cs.length (by simp at hlen; omega) cs rfl

theorem noLtGt_htmlRender (l : List Char) : noLtGt (htmlRender l) = true :=
  noLtGt_htmlRender_aux l.length l rfl

theorem htmlRender_of_noLtGt (l : List Char) (h : noLtGt l = true) :
    htmlRender l = l := by
  induction l with
  | nil => simp [htmlRender]
  | cons c cs ih =>
    rw [noLtGt] at h
    rw [htmlRender]
    by_cases hc : c = '<'
    · rw [if_pos hc] at h
      have hng : cs.contains '>' = false := by simpa using h
      have hcond : ¬ (c = '<' ∧ cs.contains '>') := by
        intro hcon
        rw [hng] at hcon
        exact absurd hcon.2 (by simp)
      rw [if_neg hcond]
      have hnm : '>' ∉ cs := fun hm => by
        rw [char_contains_iff _ _ |>.mpr hm] at hng
        cases hng
      rw [ih (noLtGt_of_not_contains cs hnm)]
    · rw [if_neg hc] at h
      rw [if_neg (by intro hcon; exact hc hcon.1)]
      rw [ih h]

theorem noLtGt_eq_false_iff (l : List Char) :
    noLtGt l = false ↔ ∃ p q r, l = p ++ '<' :: q ++ '>' :: r := by
  constructor
  · intro h
    induction l with
    | nil => simp [noLtGt] at h
    | cons c cs ih =>
      rw [noLtGt] at h
      by_cases hc : c = '<'
      · rw [if_pos hc] at h
        have hmem : '>' ∈ cs := by
          cases hcc : cs.contains '>'
          · rw [hcc] at h
            simp at h
          · exact char_contains_iff _ _ |>.mp hcc
        obtain ⟨q, r, hqr⟩ := List.append_of_mem hmem
        exact ⟨[], q, r, by rw [hc, hqr]; rfl⟩
      · rw [if_neg hc] at h
        obtain ⟨p, q, r, hpqr⟩ := ih h
        exact ⟨c :: p, q, r, by rw [hpqr]; rfl⟩
  · rintro ⟨p, q, r, rfl⟩
    induction p with
    | nil =>
      have hm : (q ++ '>' :: r : List Char).contains '>' = true :=
        char_contains_iff _ _ |>.mpr (by simp)
      simp [noLtGt, List.append_eq, hm]
    | cons c p ih =>
      rw [List.cons_append]
      by_cases hc : c = '<'
      · subst hc
        have hm : (p ++ '<' :: q ++ '>' :: r : List Char).contains '>' = true :=
          char_contains_iff _ _ |>.mpr (by simp)
        simp [noLtGt, List.append_eq, hm]
      · rw [noLtGt.eq_def]
        simpa [hc] using ih

theorem sublist_decomp {a b : List Char} (h : List.Sublist a b)
    (hd : ∃ p q r, a = p ++ '<' :: q ++ '>' :: r) :
    ∃ p q r, b = p ++ '<' :: q ++ '>' :: r := by
  induction h with
  | slnil =>
    obtain ⟨p, q, r, hp⟩ := hd
    exact absurd hp (by simp)
  | cons c _ ih =>
    obtain ⟨p, q, r, hp⟩ := ih hd
    exact ⟨c :: p, q, r, by rw [hp]; rfl⟩
  | cons₂ c hs ih =>
    rename_i l₁ l₂
    obtain ⟨p, q, r, hp⟩ := hd
    cases p with
    | nil =>
      simp only [List.nil_append] at hp
      obtain ⟨hc, ha⟩ := List.cons.inj hp
      have hmem : '>' ∈ l₁ := by rw [ha]; simp
      have hmemb : '>' ∈ l₂ := hs.mem hmem
      obtain ⟨s, t, hst⟩ := List.append_of_mem hmemb
      exact ⟨[], s, t, by rw [hc, hst]; rfl⟩
    | cons x p' =>
      obtain ⟨hx, ha⟩ := List.cons.inj hp
      obtain ⟨p'', q'', r'', hb⟩ := ih ⟨p', q, r, ha⟩
      exact ⟨c :: p'', q'', r'', by rw [hb, hx]; rfl⟩

theorem words_all_aux :
    ∀ (len : Nat) (l : List Char), l.length = len →
      ∀ w ∈ words l, w ≠ [] ∧ ∀ c ∈ w, isWs c = false := by
  intro len
  induction len using Nat.strong_induction_on with
  | _ len ih =>
    intro l hlen w hw
    cases l with
    | nil => simp [words] at hw
    | cons c cs =>
      rw [words] at hw
      by_cases hc : isWs c
      · rw [if_pos hc] at hw
        exact ih cs.length (by simp at hlen; omega) cs rfl w hw
      · rw [if_neg hc] at hw
        rcases List.mem_cons.mp hw with hw | hw
        · subst hw
          refine ⟨by simp, ?_⟩
          intro x hx
          rcases List.mem_cons.mp hx with hx | hx
          · subst hx
            simpa using hc
          · have := List.mem_takeWhile_imp hx
            simpa using this
        · have hsub :=
            (List.dropWhile_sublist (p := fun d => !(isWs d))
              (l := cs)).length_le
          exact ih (cs.dropWhile (fun d => !(isWs d))).length
            (by simp at hlen; omega) _ rfl w hw

theorem words_all (l : List Char) :
    ∀ w ∈ words l, w ≠ [] ∧ ∀ c ∈ w, isWs c = false :=
  words_all_aux l.length l rfl

theorem takeWhile_all_append (p : Char → Bool) (w : List Char) (s : Char)
    (t : List Char) (hw : ∀ x ∈ w, p x = true) (hs : p s = false) :
    (w ++ s :: t).takeWhile p = w := by
  induction w with
  | nil => simp [List.takeWhile_cons, hs]
  | cons c w ih =>
    rw [List.cons_append, List.takeWhile_cons, hw c (by simp), if_pos rfl]
    rw [ih (fun x hx => hw x (by simp [hx]))]

theorem dropWhile_all_append (p : Char → Bool) (w : List Char) (s : Char)
    (t : List Char) (hw : ∀ x ∈ w, p x = true) (hs : p s = false) :
    (w ++ s :: t).dropWhile p = s :: t := by
  induction w with
  | nil => simp [List.dropWhile_cons, hs]
  | cons c w ih =>
    rw [List.cons_append, List.dropWhile_cons, hw c (by simp), if_pos rfl]
    exact ih (fun x hx => hw x (by simp [hx]))

theorem words_single (w : List Char) (hne : w ≠ [])
    (hnw : ∀ c ∈ w, isWs c = false) : words w = [w] := by
  cases w with
  | nil => exact absurd rfl hne
  | cons c cs =>
    rw [words, if_neg (by simp [hnw c (by simp)])]
    rw [List.takeWhile_eq_self_iff.mpr
      (fun x hx => by simp [hnw x (by simp [hx])])]
    rw [List.dropWhile_eq_nil_iff.mpr
      (fun x hx => by simp [hnw x (by simp [hx])])]
    rw [words]

theorem words_word_append (w : List Char) (t : List Char) (hne : w ≠ [])
    (hnw : ∀ c ∈ w, isWs c = false) :
    words (w ++ ' ' :: t) = w :: words t := by
  cases w with
  | nil => exact absurd rfl hne
  | cons c cs =>
    rw [List.cons_append, words, if_neg (by simp [hnw c (by simp)])]
    rw [takeWhile_all_append _ cs ' ' t
      (fun x hx => by simp [hnw x (by simp [hx])]) (by simp [isWs])]
    rw [dropWhile_all_append _ cs ' ' t
      (fun x hx => by simp [hnw x (by simp [hx])]) (by simp [isWs])]
    rw [words, if_pos (by simp [isWs])]

theorem words_joinSpace (ws : List (List Char))
    (h : ∀ w ∈ ws, w ≠ [] ∧ ∀ c ∈ w, isWs c = false) :
    words (joinSpace ws) = ws := by
  induction ws with
  | nil => simp [joinSpace, words]
  | cons w ws ih =>
    cases ws with
    | nil =>
      rw [joinSpace]
      exact words_single w (h w (by simp)).1 (h w (by simp)).2
    | cons w2 ws2 =>
      rw [joinSpace]
      · rw [words_word_append w _ (h w (by simp)).1 (h w (by simp)).2]
        rw [ih (fun x hx => h x (by simp [hx]))]
      · simp

theorem joinSpace_single (w : List Char) : joinSpace [w] = w := rfl

theorem joinSpace_cons_cons (w w2 : List Char) (ws : List (List Char)) :
    joinSpace (w :: w2 :: ws) = w ++ ' ' :: joinSpace (w2 :: ws) := rfl

theorem mem_joinSpace (ws : List (List Char)) :
    ∀ x ∈ joinSpace ws, x = ' ' ∨ ∃ w ∈ ws, x ∈ w := by
  induction ws with
  | nil => simp [joinSpace]
  | cons w ws ih =>
    cases ws with
    | nil =>
      intro x hx
      rw [joinSpace_single] at hx
      exact Or.inr ⟨w, by simp, hx⟩
    | cons w2 ws2 =>
      intro x hx
      rw [joinSpace_cons_cons] at hx
      rcases List.mem_append.mp hx with hx | hx
      · exact Or.inr ⟨w, by simp, hx⟩
      · rcases List.mem_cons.mp hx with hx | hx
        · exact Or.inl hx
        · rcases ih x hx with hx | ⟨w', hw', hxw⟩
          · exact Or.inl hx
          · exact Or.inr ⟨w', by simp [hw'], hxw⟩

theorem joinSpace_ne_nil (w : List Char) (ws : List (List Char))
    (hne : w ≠ []) : joinSpace (w :: ws) ≠ [] := by
  cases ws with
  | nil => simpa [joinSpace_single] using hne
  | cons w2 ws2 =>
    rw [joinSpace_cons_cons]
    simp

theorem joinSpace_head (w : List Char) (ws : List (List Char)) (c : Char)
    (cs : List Char) (hw : w = c :: cs) :
    (joinSpace (w :: ws)).head? = some c := by
  cases ws with
  | nil => rw [joinSpace_single, hw]; rfl
  | cons w2 ws2 => rw [joinSpace_cons_cons, hw]; rfl

theorem joinSpace_getLast (ws : List (List Char))
    (h : ∀ w ∈ ws, w ≠ [] ∧ ∀ c ∈ w, isWs c = false) (hne : ws ≠ []) :
    ∃ c, (joinSpace ws).getLast? = some c ∧ isWs c = false := by
  induction ws with
  | nil => exact absurd rfl hne
  | cons w ws ih =>
    cases ws with
    | nil =>
      rw [joinSpace_single]
      have hw := h w (by simp)
      have hlast : w.getLast? = some (w.getLast hw.1) :=
        List.getLast?_eq_getLast w hw.1
      exact ⟨w.getLast hw.1, hlast, hw.2 _ (List.getLast_mem hw.1)⟩
    | cons w2 ws2 =>
      rw [joinSpace_cons_cons]
      obtain ⟨c, hc1, hc2⟩ := ih (fun x hx => h x (by simp [hx])) (by simp)
      refine ⟨c, ?_, hc2⟩
      rw [List.getLast?_append]
      cases hJs : joinSpace (w2 :: ws2) with
      | nil =>
        exact absurd hJs (joinSpace_ne_nil w2 ws2 (h w2 (by simp)).1)
      | cons j js =>
        rw [hJs] at hc1
        rw [List.getLast?_cons_cons, hc1]
        rfl

theorem dropWhile_eq_self_of_head (p : Char → Bool) (l : List Char)
    (h : ∀ c, l.head? = some c → p c = false) : l.dropWhile p = l := by
  cases l with
  | nil => rfl
  | cons c cs =>
    rw [List.dropWhile_cons, h c rfl]
    simp

theorem trim_of_boundary (l : List Char)
    (h1 : ∀ c, l.head? = some c → isWs c = false)
    (h2 : ∀ c, l.getLast? = some c → isWs c = false) : trimChars l = l := by
  rw [trimChars, dropWhile_eq_self_of_head isWs l h1]
  rw [dropWhile_eq_self_of_head isWs l.reverse
    (fun c hc => h2 c (by rwa [List.head?_reverse] at hc))]
  exact List.reverse_reverse l

theorem trim_joinSpace (ws : List (List Char))
    (h : ∀ w ∈ ws, w ≠ [] ∧ ∀ c ∈ w, isWs c = false) :
    trimChars (joinSpace ws) = joinSpace ws := by
  cases ws with
  | nil => rfl
  | cons w ws =>
    have hw := h w (by simp)
    obtain ⟨c, cs, hccs⟩ : ∃ c cs, w = c :: cs := by
      cases w with
      | nil => exact absurd rfl hw.1
      | cons c cs => exact ⟨c, cs, rfl⟩
    refine trim_of_boundary _ ?_ ?_
    · intro d hd
      rw [joinSpace_head w ws c cs hccs] at hd
      cases hd
      exact hw.2 c (by simp [hccs])
    · intro d hd
      obtain ⟨e, he1, he2⟩ := joinSpace_getLast (w :: ws) h (by simp)
      rw [he1] at hd
      cases hd
      exact he2

theorem replaceNl_eq_self (l : List Char) (h : ∀ x ∈ l, x ≠ '\n') :
    replaceNl l = l := by
  induction l with
  | nil => rfl
  | cons c cs ih =>
    rw [replaceNl, List.map_cons, if_neg (h c (by simp))]
    have hcs := ih (fun x hx => h x (by simp [hx]))
    rw [replaceNl] at hcs
    rw [hcs]

theorem noLtGt_cons (c : Char) (cs : List Char) :
    noLtGt (c :: cs) = if c = '<' then !(cs.contains '>') else noLtGt cs := by
  rw [noLtGt.eq_def]

theorem words_flatten_sublist_aux :
    ∀ (len : Nat) (l : List Char), l.length = len →
      List.Sublist (words l).flatten l := by
  intro len
  induction len using Nat.strong_induction_on with
  | _ len ih =>
    intro l hlen
    cases l with
    | nil => simp [words]
    | cons c cs =>
      rw [words]
      by_cases hc : isWs c
      · rw [if_pos hc]
        exact (ih cs.length (by simp at hlen; omega) cs rfl).trans
          (List.sublist_cons_self c cs)
      · rw [if_neg hc]
        rw [List.flatten_cons]
        have hsub :=
          (List.dropWhile_sublist (p := fun d => !(isWs d))
            (l := cs)).length_le
        have hrec := ih (cs.dropWhile (fun d => !(isWs d))).length
          (by simp at hlen; omega) _ rfl
        rw [List.cons_append]
        refine List.Sublist.cons₂ c ?_
        have hstep := List.Sublist.append_left hrec
          (cs.takeWhile (fun d => !(isWs d)))
        rw [List.takeWhile_append_dropWhile] at hstep
        exact hstep

theorem words_flatten_sublist (l : List Char) :
    List.Sublist (words l).flatten l :=
  words_flatten_sublist_aux l.length l rfl

theorem filter_nonws_joinSpace (ws : List (List Char))
    (h : ∀ w ∈ ws, w ≠ [] ∧ ∀ c ∈ w, isWs c = false) :
    (joinSpace ws).filter (fun c => !(isWs c)) = ws.flatten := by
  induction ws with
  | nil => rfl
  | cons w ws ih =>
    have hw := h w (by simp)
    have hfw : w.filter (fun c => !(isWs c)) = w :=
      List.filter_eq_self.mpr (fun a ha => by simp [hw.2 a ha])
    cases ws with
    | nil =>
      rw [joinSpace_single, List.flatten_cons, List.flatten_nil,
        List.append_nil, hfw]
    | cons w2 ws2 =>
      rw [joinSpace_cons_cons, List.filter_append, hfw, List.flatten_cons]
      congr 1
      rw [List.filter_cons]
      have hsp : (!(isWs ' ')) = false := by decide
      rw [hsp]
      simp only [Bool.false_eq_true, if_false]
      exact ih (fun x hx => h x (by simp [hx]))

theorem trim_sublist (l : List Char) : List.Sublist (trimChars l) l := by
  rw [trimChars]
  have h1 : List.Sublist (l.dropWhile isWs) l := List.dropWhile_sublist isWs
  have h2 : List.Sublist ((l.dropWhile isWs).reverse.dropWhile isWs)
      (l.dropWhile isWs).reverse := List.dropWhile_sublist isWs
  have h3 := h2.reverse
  rw [List.reverse_reverse] at h3
  exact h3.trans h1

theorem decomp_filter (x : List Char)
    (hd : ∃ p q r, x = p ++ '<' :: q ++ '>' :: r) :
    ∃ p q r, x.filter (fun c => !(isWs c)) = p ++ '<' :: q ++ '>' :: r := by
  obtain ⟨p, q, r, rfl⟩ := hd
  refine ⟨p.filter (fun c => !(isWs c)), q.filter (fun c => !(isWs c)),
    r.filter (fun c => !(isWs c)), ?_⟩
  have h1 : (!(isWs '<')) = true := by decide
  have h2 : (!(isWs '>')) = true := by decide
  simp [List.filter_append, List.filter_cons, h1, h2]

theorem contains_gt_replaceNl (cs : List Char) :
    (replaceNl cs).contains '>' = cs.contains '>' := by
  cases hcc : cs.contains '>'
  · have hnm : '>' ∉ cs := fun hm => by
      rw [char_contains_iff _ _ |>.mpr hm] at hcc
      cases hcc
    have hnm2 : '>' ∉ replaceNl cs := by
      intro hm
      rw [replaceNl] at hm
      obtain ⟨y, hy, hxy⟩ := List.mem_map.mp hm
      by_cases hyn : y = '\n'
      · rw [if_pos hyn] at hxy
        exact absurd hxy.symm (by decide)
      · rw [if_neg hyn] at hxy
        exact hnm (hxy ▸ hy)
    cases hcc2 : (replaceNl cs).contains '>'
    · rfl
    · exact absurd (char_contains_iff _ _ |>.mp hcc2) hnm2
  · have hm : '>' ∈ cs := char_contains_iff _ _ |>.mp hcc
    have hm2 : '>' ∈ replaceNl cs := by
      rw [replaceNl]
      exact List.mem_map.mpr ⟨'>', hm, by simp⟩
    rw [char_contains_iff _ _ |>.mpr hm2]

theorem noLtGt_replaceNl (l : List Char) :
    noLtGt (replaceNl l) = noLtGt l := by
  induction l with
  | nil => rfl
  | cons c cs ih =>
    have hmap : replaceNl (c :: cs) =
        (if c = '\n' then ' ' else c) :: replaceNl cs := by
      rw [replaceNl, replaceNl, List.map_cons]
    rw [hmap, noLtGt_cons, noLtGt_cons]
    by_cases hc : c = '\n'
    · rw [if_pos hc]
      rw [if_neg (show ¬ (' ' = '<') by decide)]
      rw [if_neg (by rw [hc]; decide)]
      exact ih
    · rw [if_neg hc]
      by_cases hlt : c = '<'
      · rw [if_pos hlt, if_pos hlt, contains_gt_replaceNl]
      · rw [if_neg hlt, if_neg hlt]
        exact ih

theorem norm_preserves_noLtGt (l : List Char) (h : noLtGt l = true) :
    noLtGt (normChars l) = true := by
  cases hf : noLtGt (normChars l)
  · exfalso
    have hd1 := (noLtGt_eq_false_iff _).mp hf
    rw [normChars] at hd1
    have hd2 := sublist_decomp (trim_sublist _) hd1
    have hd3 := decomp_filter _ hd2
    rw [filter_nonws_joinSpace _ (words_all (replaceNl l))] at hd3
    have hd4 := sublist_decomp (words_flatten_sublist (replaceNl l)) hd3
    have hfl : noLtGt (replaceNl l) = false := (noLtGt_eq_false_iff _).mpr hd4
    rw [noLtGt_replaceNl, h] at hfl
    cases hfl
  · rfl

theorem normChars_idem (l : List Char) :
    normChars (normChars l) = normChars l := by
  have hws := words_all (replaceNl l)
  have htr : trimChars (joinSpace (words (replaceNl l))) =
      joinSpace (words (replaceNl l)) := trim_joinSpace _ hws
  have h2 : normChars l = joinSpace (words (replaceNl l)) := by
    rw [normChars]
    exact htr
  rw [h2]
  have hnl : ∀ x ∈ joinSpace (words (replaceNl l)), x ≠ '\n' := by
    intro x hx hxn
    rcases mem_joinSpace _ x hx with h1 | ⟨w, hw, hxw⟩
    · rw [hxn] at h1
      exact absurd h1 (by decide)
    · have hnw := (hws w hw).2 x hxw
      rw [hxn] at hnw
      exact absurd hnw (by decide)
  rw [normChars, replaceNl_eq_self _ hnl, words_joinSpace _ hws, htr]

theorem cleanChars_idem (l : List Char) :
    cleanChars (cleanChars l) = cleanChars l := by
  by_cases hg : l.contains '<' ∧ l.contains '>'
  · have h1 : cleanChars l = normChars (htmlRender l) := by
      rw [cleanChars, if_pos hg]
    rw [h1]
    have hn : noLtGt (normChars (htmlRender l)) = true :=
      norm_preserves_noLtGt _ (noLtGt_htmlRender l)
    by_cases hg2 : (normChars (htmlRender l)).contains '<' ∧
        (normChars (htmlRender l)).contains '>'
    · rw [cleanChars, if_pos hg2, htmlRender_of_noLtGt _ hn, normChars_idem]
    · rw [cleanChars, if_neg hg2]
  · have h1 : cleanChars l = l := by rw [cleanChars, if_neg hg]
    rw [h1, h1]

theorem cleanString_idem (s : String) :
    cleanString (cleanString s) = cleanString s := by
  show String.mk (cleanChars (cleanChars s.data)) = String.mk (cleanChars s.data)
  rw [cleanChars_idem]

mutual

theorem cleanValue_idem : ∀ (v : JValue),
    cleanValue (cleanValue v) = cleanValue v
  | .null => by simp [cleanValue]
  | .bool b => by simp [cleanValue]
  | .num n => by simp [cleanValue]
  | .str s => by simp [cleanValue, cleanString_idem]
  | .arr l => by simp [cleanValue, cleanList_idem l]
  | .obj m => by simp [cleanValue, cleanPairs_idem m]

theorem cleanList_idem : ∀ (l : List JValue),
    cleanList (cleanList l) = cleanList l
  | [] => by simp [cleanList]
  | v :: vs => by
    rw [cleanList, cleanList, cleanValue_idem v, cleanList_idem vs]

theorem cleanPairs_idem : ∀ (ps : List (String × JValue)),
    cleanPairs (cleanPairs ps) = cleanPairs ps
  | [] => by simp [cleanPairs]
  | (k, v) :: ps => by
    rw [cleanPairs, cleanPairs, cleanValue_idem v, cleanPairs_idem ps]

end

mutual

theorem cleanValue_of_leafClean : ∀ (v : JValue), leafClean v = true →
    cleanValue v = v
  | .null, _ => by simp [cleanValue]
  | .bool b, _ => by simp [cleanValue]
  | .num n, _ => by simp [cleanValue]
  | .str s, h => by
    rw [leafClean] at h
    rw [cleanValue, cleanString, cleanChars, if_neg]
    intro hcon
    rw [hcon.1, hcon.2] at h
    simp at h
  | .arr l, h => by
    rw [leafClean] at h
    rw [cleanValue, cleanList_of_leafClean l h]
  | .obj m, h => by
    rw [leafClean] at h
    rw [cleanValue, cleanPairs_of_leafClean m h]

theorem cleanList_of_leafClean : ∀ (l : List JValue), leafCleanList l = true →
    cleanList l = l
  | [], _ => by simp [cleanList]
  | v :: vs, h => by
    rw [leafCleanList] at h
    simp only [Bool.and_eq_true] at h
    rw [cleanList, cleanValue_of_leafClean v h.1, cleanList_of_leafClean vs h.2]

theorem cleanPairs_of_leafClean : ∀ (ps : List (String × JValue)),
    leafCleanPairs ps = true → cleanPairs ps = ps
  | [], _ => by simp [cleanPairs]
  | (k, v) :: ps, h => by
    rw [leafCleanPairs] at h
    simp only [Bool.and_eq_true] at h
    rw [cleanPairs, cleanValue_of_leafClean v h.1,
      cleanPairs_of_leafClean ps h.2]

end

theorem cleanList_map (l : List JValue) : cleanList l = l.map cleanValue := by
  induction l with
  | nil => rfl
  | cons v vs ih => rw [cleanList, List.map_cons, ih]

theorem cleanPairs_map (ps : Jmap) :
    cleanPairs ps = ps.map (fun p => (p.1, cleanValue p.2)) := by
  induction ps with
  | nil => rfl
  | cons p ps ih =>
    obtain ⟨k, v⟩ := p
    rw [cleanPairs, List.map_cons, ih]

/-- C8: the HTML-text cleaner `clean_html_in_value` is conservative and
idempotent.  (i) On any value none of whose string leaves contains both `<`
and `>` it is the identity; (ii) non-string leaves (null, booleans, numbers)
are always unchanged; (iii) it recurses elementwise through arrays and through
the values (not keys) of objects; (iv) cleaning twice equals cleaning once,
byte for byte, on every value. -/
theorem html_cleaner_laws :
    (∀ v : JValue, leafClean v = true → cleanValue v = v) ∧
    cleanValue .null = .null ∧
    (∀ b : Bool, cleanValue (.bool b) = .bool b) ∧
    (∀ n : Int, cleanValue (.num n) = .num n) ∧
    (∀ l : List JValue, cleanValue (.arr l) = .arr (l.map cleanValue)) ∧
    (∀ m : Jmap, cleanValue (.obj m) =
      .obj (m.map (fun p => (p.1, cleanValue p.2)))) ∧
    (∀ v : JValue, cleanValue (cleanValue v) = cleanValue v) := by
  refine ⟨cleanValue_of_leafClean, by simp [cleanValue], fun b => by
    simp [cleanValue], fun n => by simp [cleanValue], fun l => ?_,
    fun m => ?_, cleanValue_idem⟩
  · rw [cleanValue, cleanList_map]
  · rw [cleanValue, cleanPairs_map]

/-- C8 witness: the first law applied at the concrete value `"a<b"`, a string
that contains `<` but no `>`; the cleaner leaves it unchanged. -/
theorem html_cleaner_laws_witness :
    leafClean (JValue.str "a<b") = true ∧
    cleanValue (JValue.str "a<b") = JValue.str "a<b" := by
  have h : leafClean (JValue.str "a<b") = true := by
    rw [leafClean]
    decide
  exact ⟨h, html_cleaner_laws.1 _ h⟩
